import Mathlib

/-!
# Verification of the Subjourney continuation resolver

Shallow embedding of the continuation-pointer logic of the Subjourney
backend (`src/backend/app/routers/journeys.py`, `phases.py`, `steps.py`).

Conventions of the embedding:

* Rows of the relational store are Lean structures; the store itself is a
  `DB` structure holding the four tables as lists (row order = the store's
  natural row order).
* Nullable string columns are `Option String`.  Python truthiness on such a
  value (`if not x:`) treats both `None` and `""` as falsy; this is modelled
  by `pyStrNorm` / `pyTruthy`.
* `sortedByKey` models Python's stable `sorted(..., key=...)` (and the
  store's `ORDER BY sequence_order`, whose ties are broken by row order).
* Authorization (team-membership checks) is performed by the external
  Access Guard and is out of scope per the specification; the handlers
  modelled here elide those checks and keep everything else, including the
  row lookups whose failure produces HTTP errors.  Timestamps
  (`created_at` / `updated_at`) carry no logical content and are elided.
* Handlers are state passing: a handler takes a `DB` and returns a result
  (`Except` over HTTP status codes) together with the `DB` after all the
  writes the handler performed before returning (or before raising).
-/

/-- Python string-or-null normalization: `str(x) if x else None`.
`None` and `""` are both falsy and normalize to `none`. -/
def pyStrNorm : Option String → Option String
  | none => none
  | some s => if s = "" then none else some s

/-- Python truthiness of a nullable string. -/
def pyTruthy (o : Option String) : Bool :=
  (pyStrNorm o).isSome

/-- A row of the `journeys` table (columns relevant to the resolver). -/
structure Journey where
  id : String
  project_id : String
  team_id : String
  name : String
  is_subjourney : Bool
  parent_step_id : Option String
  continue_step_id : Option String
  sequence_order : Option Int
  deriving Repr, DecidableEq

/-- A row of the `phases` table. -/
structure Phase where
  id : String
  journey_id : String
  sequence_order : Int
  deriving Repr, DecidableEq

/-- A row of the `steps` table. -/
structure Step where
  id : String
  phase_id : String
  team_id : String
  sequence_order : Int
  deriving Repr, DecidableEq

/-- A row of the `projects` table. -/
structure Project where
  id : String
  team_id : String
  deriving Repr, DecidableEq

/-- The relational store. -/
structure DB where
  projects : List Project
  journeys : List Journey
  phases : List Phase
  steps : List Step
  deriving Repr, DecidableEq

instance {ε α : Type _} [DecidableEq ε] [DecidableEq α] :
    DecidableEq (Except ε α) := fun x y =>
  match x, y with
  | Except.ok a, Except.ok b =>
    if h : a = b then Decidable.isTrue (by rw [h])
    else Decidable.isFalse (fun hc => h (Except.ok.inj hc))
  | Except.error a, Except.error b =>
    if h : a = b then Decidable.isTrue (by rw [h])
    else Decidable.isFalse (fun hc => h (Except.error.inj hc))
  | Except.ok _, Except.error _ => Decidable.isFalse (fun hc => Except.noConfusion hc)
  | Except.error _, Except.ok _ => Decidable.isFalse (fun hc => Except.noConfusion hc)

/-! ## Stable sorting by an integer key

Python's `sorted` and the store's `ORDER BY` are stable; ties keep row
order.  `insertByKey`/`sortedByKey` is a stable insertion sort, which is
extensionally the same function. -/

/-- Insert `a` in front of the first element whose key is not smaller,
keeping `a` before elements with an equal key that come from later in the
original list. -/
def insertByKey (key : α → Int) (a : α) : List α → List α
  | [] => [a]
  | b :: bs => if key a ≤ key b then a :: b :: bs else b :: insertByKey key a bs

/-- Stable sort by an integer key (models Python `sorted(l, key=...)`). -/
def sortedByKey (key : α → Int) : List α → List α
  | [] => []
  | a :: as => insertByKey key a (sortedByKey key as)

theorem insertByKey_perm (key : α → Int) (a : α) (l : List α) :
    List.Perm (insertByKey key a l) (a :: l) := by
  induction l with
  | nil => simp [insertByKey]
  | cons b bs ih =>
    simp only [insertByKey]
    split
    · exact List.Perm.refl _
    · exact (List.Perm.cons b ih).trans (List.Perm.swap a b bs)

theorem sortedByKey_perm (key : α → Int) (l : List α) :
    List.Perm (sortedByKey key l) l := by
  induction l with
  | nil => simp [sortedByKey]
  | cons a as ih =>
    exact (insertByKey_perm key a (sortedByKey key as)).trans (List.Perm.cons a ih)

theorem mem_insertByKey {key : α → Int} {a x : α} {l : List α} :
    x ∈ insertByKey key a l ↔ x = a ∨ x ∈ l := by
  have := (insertByKey_perm key a l).mem_iff (a := x)
  simpa using this

theorem mem_sortedByKey {key : α → Int} {x : α} {l : List α} :
    x ∈ sortedByKey key l ↔ x ∈ l :=
  (sortedByKey_perm key l).mem_iff

theorem insertByKey_sorted (key : α → Int) (a : α) (l : List α)
    (h : l.Pairwise (fun x y => key x ≤ key y)) :
    (insertByKey key a l).Pairwise (fun x y => key x ≤ key y) := by
  induction l with
  | nil => simp [insertByKey]
  | cons b bs ih =>
    simp only [insertByKey]
    rcases List.pairwise_cons.mp h with ⟨hb, hbs⟩
    split
    · rename_i hab
      refine List.pairwise_cons.mpr ⟨?_, h⟩
      intro y hy
      rcases List.mem_cons.mp hy with rfl | hy
      · exact hab
      · exact le_trans hab (hb y hy)
    · rename_i hab
      have hba : key b ≤ key a := le_of_lt (lt_of_not_le hab)
      refine List.pairwise_cons.mpr ⟨?_, ih hbs⟩
      intro y hy
      rcases mem_insertByKey.mp hy with rfl | hy
      · exact hba
      · exact hb y hy

theorem sortedByKey_sorted (key : α → Int) (l : List α) :
    (sortedByKey key l).Pairwise (fun x y => key x ≤ key y) := by
  induction l with
  | nil => simp [sortedByKey]
  | cons a as ih => exact insertByKey_sorted key a _ ih

/-! ## §4.1 / §4.2 — Ordered Step Sequencer and Continuation Computer

Embedding of `_compute_continue_step_id_for_subjourney`
(`journeys.py` lines 13-73).  The source sorts the phases by
`sequence_order`, skips phases with a falsy `id`, and for each phase
appends that phase's steps sorted by `sequence_order`. -/

/-- The per-phase extension loop of `_compute_continue_step_id_for_subjourney`
(`for phase in sorted_phases: ... all_steps_sorted.extend(...)`). -/
def collectSteps (steps : List Step) : List Phase → List Step
  | [] => []
  | ph :: rest =>
    if ph.id = "" then collectSteps steps rest
    else
      sortedByKey Step.sequence_order (steps.filter (fun s => s.phase_id == ph.id))
        ++ collectSteps steps rest

/-- `all_steps_sorted`: the canonical total order of a journey's steps
(phases ascending by `sequence_order`, steps ascending within each phase). -/
def orderedSteps (phases : List Phase) (steps : List Step) : List Step :=
  collectSteps steps (sortedByKey Phase.sequence_order phases)

/-- Embedding of `_compute_continue_step_id_for_subjourney` (`journeys.py`
lines 13-73).  Pure: it receives plain loaded rows and performs no store
access.  Note the source's truthiness checks: a falsy `parent_step_id`
yields `None`, and a falsy id on the following step also yields `None`
(`str(next_step_id) if next_step_id else None`). -/
def computeContinueStepId (subjourney parent_journey : Journey)
    (parent_phases : List Phase) (parent_steps : List Step) : Option String :=
  match subjourney.parent_step_id with
  | none => none
  | some psid =>
    if psid = "" then none
    else
      let allStepsSorted := orderedSteps parent_phases parent_steps
      match allStepsSorted.findIdx? (fun s => s.id == psid) with
      | none => none
      | some idx =>
        if idx < allStepsSorted.length - 1 then
          match allStepsSorted.get? (idx + 1) with
          | some next => if next.id = "" then none else some next.id
          | none => none
        else if parent_journey.is_subjourney then some psid
        else none

/-! ## Store queries shared by the resolver call sites

`_update_continue_step_ids_for_journey`, `get_journey_structure` and the
project-wide validator all issue the same three queries; they are factored
here.  `ORDER BY sequence_order` is the stable `sortedByKey`. -/

/-- `phases` of a journey, ordered by `sequence_order`. -/
def journeyPhases (db : DB) (journey_id : String) : List Phase :=
  sortedByKey Phase.sequence_order
    (db.phases.filter (fun p => p.journey_id == journey_id))

/-- `steps` of a journey: the steps of its phases, ordered by
`sequence_order`; the query is only issued when the phase list is
non-empty (`if phase_ids:`). -/
def journeySteps (db : DB) (journey_id : String) : List Step :=
  let phase_ids := (journeyPhases db journey_id).map Phase.id
  if phase_ids.isEmpty then []
  else sortedByKey Step.sequence_order
    (db.steps.filter (fun s => phase_ids.contains s.phase_id))

/-- The journey row with a given id (`.eq("id", jid)` + `data[0]`). -/
def journeyById (db : DB) (journey_id : String) : Option Journey :=
  (db.journeys.filter (fun j => j.id == journey_id)).head?

/-- `UPDATE journeys SET continue_step_id = v WHERE id = jid`. -/
def writeContinue (db : DB) (jid : String) (v : Option String) : DB :=
  { db with
    journeys := db.journeys.map
      (fun j => if j.id == jid then { j with continue_step_id := v } else j) }

/-! ## §4.3 — Validator/Repairer

Embedding of `_validate_and_fix_continue_step_id` (`journeys.py` lines
76-117).  Returns the store after the (possible) corrective write, and
`true` iff a write happened.  The source's extra existence check on the
currently stored value is kept: both of its branches perform the same
write (the check only served diagnostics). -/
def validateAndFixContinueStepId (db : DB) (subjourney parent_journey : Journey)
    (parent_phases : List Phase) (parent_steps : List Step) : DB × Bool :=
  let computed := computeContinueStepId subjourney parent_journey parent_phases parent_steps
  let computedStr := pyStrNorm computed
  let currentStr := pyStrNorm subjourney.continue_step_id
  if computedStr = currentStr then (db, false)
  else
    match currentStr with
    | some cur =>
      if (parent_steps.filter (fun s => s.id == cur)).isEmpty then
        (writeContinue db subjourney.id computed, true)
      else
        (writeContinue db subjourney.id computed, true)
    | none => (writeContinue db subjourney.id computed, true)

/-- The subjourney rows anchored in a given step-id set
(`.eq("is_subjourney", True).in_("parent_step_id", step_ids)`). -/
def anchoredSubjourneys (journeys : List Journey) (step_ids : List String) : List Journey :=
  journeys.filter (fun j => j.is_subjourney &&
    (match j.parent_step_id with
     | some p => step_ids.contains p
     | none => false))

/-! ## §4.4 — Journey-Scoped Repair Sweep

Embedding of `_update_continue_step_ids_for_journey` (`journeys.py` lines
120-179).  The journey, its phases, steps and subjourneys are all fetched
before the loop; the loop threads the store through the validator. -/
def updateContinueStepIdsForJourney (db : DB) (journey_id : String) : DB :=
  match journeyById db journey_id with
  | none => db
  | some journey =>
    let phases := journeyPhases db journey_id
    let steps := journeySteps db journey_id
    let step_ids := steps.map Step.id
    let subjourneys := anchoredSubjourneys db.journeys step_ids
    subjourneys.foldl
      (fun d sj => (validateAndFixContinueStepId d sj journey phases steps).1) db

/-! ## §4.5 — Structural mutation handlers and read-time repair

State-passing embeddings of the HTTP handlers that touch step ordering or
invoke the resolver.  Results are `Except` over HTTP status codes (`404`,
`400`, `500`); as in the source, a handler that raises before its first
write leaves the store untouched. -/

/-- Request body of `POST /journeys/create` (`JourneyCreate`). -/
structure JourneyCreate where
  project_id : String
  name : String
  is_subjourney : Bool := false
  parent_step_id : Option String := none
  continue_step_id : Option String := none
  deriving Repr, DecidableEq

/-- `sequence_order` assigned by `create_journey`: next after the maximum
over the project's existing top-level journeys; `None` for subjourneys. -/
def nextTopLevelSeq (db : DB) (req : JourneyCreate) : Option Int :=
  if req.is_subjourney then none
  else
    let existing := db.journeys.filter
      (fun j => j.project_id == req.project_id && !j.is_subjourney)
    if existing.isEmpty then some 1
    else
      match existing.filterMap Journey.sequence_order with
      | [] => some 1
      | o :: rest => some (rest.foldl (fun m x => max m x) o + 1)

/-- The `continue_step_id` stored by `create_journey`: the request's value,
unless the journey is a subjourney with a truthy `parent_step_id` and a
falsy `continue_step_id`, in which case the anchor's phase and journey are
chased and the continuation is computed against the parent's current
structure; any failed lookup in the chain leaves the request's value.
(`journeys.py` lines 273-343.) -/
def computeCreateContinue (db : DB) (req : JourneyCreate) : Option String :=
  if req.is_subjourney && pyTruthy req.parent_step_id && !(pyTruthy req.continue_step_id) then
    match req.parent_step_id with
    | none => req.continue_step_id
    | some psid =>
      match (db.steps.filter (fun s => s.id == psid)).head? with
      | none => req.continue_step_id
      | some pstep =>
        if pstep.phase_id = "" then req.continue_step_id
        else
          match (db.phases.filter (fun p => p.id == pstep.phase_id)).head? with
          | none => req.continue_step_id
          | some pphase =>
            if pphase.journey_id = "" then req.continue_step_id
            else
              match journeyById db pphase.journey_id with
              | none => req.continue_step_id
              | some pj =>
                computeContinueStepId
                  { id := "", project_id := "", team_id := "", name := "",
                    is_subjourney := true, parent_step_id := req.parent_step_id,
                    continue_step_id := none, sequence_order := none }
                  pj (journeyPhases db pphase.journey_id)
                  (journeySteps db pphase.journey_id)
  else req.continue_step_id

/-- Embedding of `create_journey` (`journeys.py` lines 213-376).  `new_id`
stands for the freshly generated `uuid4`.  Note that the request's
`is_subjourney` and `parent_step_id` are inserted exactly as provided. -/
def createJourney (db : DB) (req : JourneyCreate) (new_id : String) :
    Except Nat Journey × DB :=
  match (db.projects.filter (fun p => p.id == req.project_id)).head? with
  | none => (Except.error 404, db)
  | some proj =>
    let row : Journey :=
      { id := new_id, project_id := req.project_id, team_id := proj.team_id,
        name := req.name, is_subjourney := req.is_subjourney,
        parent_step_id := req.parent_step_id,
        continue_step_id := computeCreateContinue db req,
        sequence_order := nextTopLevelSeq db req }
    (Except.ok row, { db with journeys := db.journeys ++ [row] })

/-- The 1-based `sequence_order` reassignment loop shared by the step
mutation handlers (`for index, step_id in enumerate(...): UPDATE steps SET
sequence_order = index + 1 WHERE id = step_id AND phase_id = phase_id`). -/
def renumberSteps (phase_id : String) (step_ids : List String) (db : DB) : DB :=
  step_ids.enum.foldl
    (fun d p =>
      { d with steps := d.steps.map (fun s =>
          if s.id == p.2 && s.phase_id == phase_id
          then { s with sequence_order := (p.1 : Int) + 1 } else s) }) db

/-- The same reassignment loop over a journey's phases
(`reorder_phases`). -/
def renumberPhases (journey_id : String) (phase_ids : List String) (db : DB) : DB :=
  phase_ids.enum.foldl
    (fun d q =>
      { d with phases := d.phases.map (fun p =>
          if p.id == q.2 && p.journey_id == journey_id
          then { p with sequence_order := (q.1 : Int) + 1 } else p) }) db

/-- Embedding of `reorder_steps` (`phases.py` lines 254-315).  Foreign ids
are rejected with `400` before any write; on success each listed step gets
a 1-based `sequence_order`.  No repair sweep is invoked. -/
def reorderSteps (db : DB) (phase_id : String) (step_ids : List String) :
    Except Nat Unit × DB :=
  match (db.phases.filter (fun p => p.id == phase_id)).head? with
  | none => (Except.error 404, db)
  | some phase =>
    match journeyById db phase.journey_id with
    | none => (Except.error 404, db)
    | some _ =>
      if step_ids.isEmpty then (Except.ok (), db)
      else
        let valid_ids := (db.steps.filter
          (fun s => step_ids.contains s.id && s.phase_id == phase_id)).map Step.id
        if !(step_ids.all (fun x => valid_ids.contains x)) then (Except.error 400, db)
        else (Except.ok (), renumberSteps phase_id step_ids db)

/-- Embedding of `reorder_phases` (`journeys.py` lines 753-813).  Same
shape as `reorderSteps`, over the journey's phases; no repair sweep. -/
def reorderPhases (db : DB) (journey_id : String) (phase_ids : List String) :
    Except Nat Unit × DB :=
  match journeyById db journey_id with
  | none => (Except.error 404, db)
  | some _ =>
    if phase_ids.isEmpty then (Except.ok (), db)
    else
      let valid_ids := (db.phases.filter
        (fun p => phase_ids.contains p.id && p.journey_id == journey_id)).map Phase.id
      if !(phase_ids.all (fun x => valid_ids.contains x)) then (Except.error 400, db)
      else (Except.ok (), renumberPhases journey_id phase_ids db)

/-- One iteration of `delete_step`'s trailing loop over the subjourneys
whose stored `continue_step_id` was the deleted step: chase the
subjourney's `parent_step_id` to its step, phase and journey, and sweep
that journey; any falsy value or failed lookup in the chain does nothing
(`steps.py` lines 288-320). -/
def grandparentSweepStep (d : DB) (sjid : String) : DB :=
  match journeyById d sjid with
  | none => d
  | some row =>
    match row.parent_step_id with
    | none => d
    | some p =>
      if p = "" then d
      else
        match (d.steps.filter (fun s => s.id == p)).head? with
        | none => d
        | some pstep =>
          if pstep.phase_id = "" then d
          else
            match (d.phases.filter (fun ph => ph.id == pstep.phase_id)).head? with
            | none => d
            | some pphase =>
              if pphase.journey_id = "" then d
              else updateContinueStepIdsForJourney d pphase.journey_id

/-- The write pipeline of `delete_step` (`steps.py` lines 246-321), run
once the step, its phase and its journey have been found: record the
subjourneys pointing at the step, delete it, renumber the remaining steps
of its phase to contiguous 1-based order, sweep the owning journey, then
run `grandparentSweepStep` for each recorded subjourney. -/
def deleteStepCore (db : DB) (step_id phase_id journey_id : String) : DB :=
  let affected_ids := (db.journeys.filter
    (fun j => j.is_subjourney && j.continue_step_id == some step_id)).map Journey.id
  let db1 : DB := { db with steps := db.steps.filter (fun s => !(s.id == step_id)) }
  let remaining_ids := (sortedByKey Step.sequence_order
    (db1.steps.filter (fun s => s.phase_id == phase_id))).map Step.id
  let db2 := renumberSteps phase_id remaining_ids db1
  let db3 := if journey_id = "" then db2
    else updateContinueStepIdsForJourney db2 journey_id
  affected_ids.foldl grandparentSweepStep db3

/-- Embedding of `delete_step` (`steps.py` lines 210-326). -/
def deleteStep (db : DB) (step_id : String) : Except Nat Unit × DB :=
  match (db.steps.filter (fun s => s.id == step_id)).head? with
  | none => (Except.error 404, db)
  | some step =>
    match (db.phases.filter (fun p => p.id == step.phase_id)).head? with
    | none => (Except.error 404, db)
    | some phase =>
      match journeyById db phase.journey_id with
      | none => (Except.error 404, db)
      | some _ => (Except.ok (), deleteStepCore db step_id step.phase_id phase.journey_id)

/-- The write pipeline of `move_step_to_phase` (`steps.py` lines 389-448),
run once the checks pass: move the step to the end of the target phase,
renumber the source phase when different, then sweep the target journey
and, when it differs, the source journey. -/
def moveStepCore (db : DB) (step_id target_phase_id source_phase_id : String) : DB :=
  let tsteps := db.steps.filter (fun s => s.phase_id == target_phase_id)
  let next_order : Int :=
    match tsteps with
    | [] => 1
    | t :: rest => rest.foldl (fun m s => max m s.sequence_order) t.sequence_order + 1
  let db1 : DB := { db with steps := db.steps.map (fun s =>
      if s.id == step_id
      then { s with phase_id := target_phase_id, sequence_order := next_order }
      else s) }
  let db2 :=
    if source_phase_id ≠ "" ∧ source_phase_id ≠ target_phase_id then
      let src_ids := (sortedByKey Step.sequence_order
        (db1.steps.filter (fun s => s.phase_id == source_phase_id))).map Step.id
      renumberSteps source_phase_id src_ids db1
    else db1
  let tq := (db2.phases.filter (fun p => p.id == target_phase_id)).head?
  let db3 :=
    match tq with
    | some p2 =>
      if p2.journey_id = "" then db2
      else updateContinueStepIdsForJourney db2 p2.journey_id
    | none => db2
  if source_phase_id ≠ "" ∧ source_phase_id ≠ target_phase_id then
    match (db3.phases.filter (fun p => p.id == source_phase_id)).head? with
    | none => db3
    | some sp =>
      if sp.journey_id = "" then db3
      else
        match tq with
        | none => db3
        | some p2 =>
          if sp.journey_id == p2.journey_id then db3
          else updateContinueStepIdsForJourney db3 sp.journey_id
  else db3

/-- Embedding of `move_step_to_phase` (`steps.py` lines 329-454).  The
`.single()` fetches error out unless exactly one row matches. -/
def moveStep (db : DB) (step_id target_phase_id : String) : Except Nat Unit × DB :=
  match db.steps.filter (fun s => s.id == step_id) with
  | [step] =>
    (match db.phases.filter (fun p => p.id == target_phase_id) with
     | [tphase] =>
       (match db.journeys.filter (fun j => j.id == tphase.journey_id) with
        | [tjourney] =>
          let source_phase_id := step.phase_id
          if tjourney.team_id = "" then (Except.error 400, db)
          else if ¬(step.team_id = tjourney.team_id) then (Except.error 400, db)
          else (Except.ok (), moveStepCore db step_id target_phase_id source_phase_id)
        | _ => (Except.error 500, db))
     | _ => (Except.error 500, db))
  | _ => (Except.error 500, db)

/-- The subjourney portion of `get_journey_structure` (`journeys.py` lines
565-750): for each subjourney anchored in the journey's steps, validate
and (when stale) repair its `continue_step_id`, reload it if repaired, and
derive a value in the response when it is still falsy.  Returns the pairs
`(subjourney id, continue_step_id as observed by the client)` in response
order, together with the store after the repairs. -/
def structureRepairStep (journey : Journey) (phases : List Phase)
    (all_steps : List Step) (acc : DB × List (String × Option String))
    (sj : Journey) : DB × List (String × Option String) :=
  let vr := validateAndFixContinueStepId acc.1 sj journey phases all_steps
  let c1 : Option String :=
    if vr.2 then
      match journeyById vr.1 sj.id with
      | some rowNow => rowNow.continue_step_id
      | none => sj.continue_step_id
    else sj.continue_step_id
  let c2 : Option String :=
    if pyTruthy c1 then c1
    else
      match computeContinueStepId sj journey phases all_steps with
      | some dcid => if dcid = "" then c1 else some dcid
      | none => c1
  (vr.1, acc.2 ++ [(sj.id, c2)])

def getJourneyStructureRepair (db : DB) (journey_id : String)
    (include_subjourneys : Bool) :
    Except Nat (List (String × Option String)) × DB :=
  match journeyById db journey_id with
  | none => (Except.error 404, db)
  | some journey =>
    let phases := journeyPhases db journey_id
    let all_steps := journeySteps db journey_id
    let step_ids := all_steps.map Step.id
    let subjourneys_raw :=
      if include_subjourneys && !step_ids.isEmpty
      then anchoredSubjourneys db.journeys step_ids
      else []
    let res := subjourneys_raw.foldl (structureRepairStep journey phases all_steps) (db, [])
    (Except.ok res.2, res.1)

/-- Embedding of `validate_and_fix_continue_step_ids`
(`journeys.py` lines 870-975), `POST /journeys/validate-continue-step-ids/{project_id}`:
fetch the project's top-level journeys, and for each, validate every
subjourney anchored in its steps, accumulating `(fixed_count,
total_subjourneys)`. -/
def validateAndFixContinueStepIdsForProject (db : DB) (project_id : String) :
    Except Nat (Nat × Nat) × DB :=
  match (db.projects.filter (fun p => p.id == project_id)).head? with
  | none => (Except.error 404, db)
  | some _ =>
    let top := db.journeys.filter
      (fun j => j.project_id == project_id && !j.is_subjourney)
    let res := top.foldl
      (fun (acc : DB × Nat × Nat) journey =>
        let phases := journeyPhases acc.1 journey.id
        let steps := journeySteps acc.1 journey.id
        if steps.isEmpty then acc
        else
          let subs := anchoredSubjourneys acc.1.journeys (steps.map Step.id)
          let inner := subs.foldl
            (fun (p : DB × Nat) sj =>
              let vr := validateAndFixContinueStepId p.1 sj journey phases steps
              (vr.1, p.2 + (if vr.2 then 1 else 0))) (acc.1, 0)
          (inner.1, acc.2.1 + inner.2, acc.2.2 + subs.length)) (db, 0, 0)
    (Except.ok (res.2.1, res.2.2), res.1)

/-! ## Properties of the Ordered Step Sequencer

The canonical order is characterized against the spec's description: the
sequencer permutes the journey's steps, and the result is sorted by the
lexicographic key (anchor phase's `sequence_order`, step's
`sequence_order`). -/

/-- The `sequence_order` of the phase a step belongs to (0 if absent). -/
def phaseOrderOf (phases : List Phase) (pid : String) : Int :=
  match phases.find? (fun p => p.id == pid) with
  | some p => p.sequence_order
  | none => 0

/-- Lexicographic "comes no later than" on steps: strictly earlier phase,
or same phase order and no larger step order. -/
def stepKeyLe (phases : List Phase) (s t : Step) : Prop :=
  phaseOrderOf phases s.phase_id < phaseOrderOf phases t.phase_id ∨
    (phaseOrderOf phases s.phase_id = phaseOrderOf phases t.phase_id ∧
      s.sequence_order ≤ t.sequence_order)

theorem collectSteps_filter_ne (steps : List Step) (x : String) :
    ∀ PS : List Phase, (∀ q ∈ PS, q.id ≠ x) →
      collectSteps steps PS =
        collectSteps (steps.filter (fun s => !(s.phase_id == x))) PS := by
  intro PS
  induction PS with
  | nil => intro _; rfl
  | cons q rest ih =>
    intro hne
    have hq : q.id ≠ x := hne q (List.mem_cons_self q rest)
    have hrest : ∀ p ∈ rest, p.id ≠ x := fun p hp => hne p (List.mem_cons_of_mem q hp)
    simp only [collectSteps]
    rw [ih hrest]
    by_cases hqe : q.id = ""
    · simp [hqe]
    · simp only [hqe, if_neg, ite_false]
      congr 1
      congr 1
      rw [List.filter_filter]
      refine (List.filter_congr ?_).symm
      intro s _
      by_cases hs : s.phase_id = q.id
      · have : ¬ (s.phase_id == x) = true := by
          simp only [beq_iff_eq]
          rw [hs]; exact hq
        simp [hs, this, hq]
      · simp [hs]

theorem mem_collectSteps {steps : List Step} {PS : List Phase} {x : Step}
    (h : x ∈ collectSteps steps PS) :
    ∃ q ∈ PS, x ∈ steps ∧ x.phase_id = q.id := by
  induction PS with
  | nil => simp [collectSteps] at h
  | cons q rest ih =>
    simp only [collectSteps] at h
    by_cases hqe : q.id = ""
    · rw [if_pos hqe] at h
      obtain ⟨q', hq', hx⟩ := ih h
      exact ⟨q', List.mem_cons_of_mem q hq', hx⟩
    · rw [if_neg hqe] at h
      rcases List.mem_append.mp h with hl | hr
      · have hx := List.mem_filter.mp (mem_sortedByKey.mp hl)
        exact ⟨q, List.mem_cons_self q rest, hx.1, by
          have := hx.2; simpa [beq_iff_eq] using this⟩
      · obtain ⟨q', hq', hx⟩ := ih hr
        exact ⟨q', List.mem_cons_of_mem q hq', hx⟩

theorem collectSteps_perm :
    ∀ (PS : List Phase) (steps : List Step), (PS.map Phase.id).Nodup →
      (∀ q ∈ PS, q.id ≠ "") →
      (∀ s ∈ steps, s.phase_id ∈ PS.map Phase.id) →
      List.Perm (collectSteps steps PS) steps := by
  intro PS
  induction PS with
  | nil =>
    intro steps _ _ hcov
    have hempty : steps = [] :=
      List.eq_nil_iff_forall_not_mem.mpr (fun s hs => by simpa using hcov s hs)
    simp [collectSteps, hempty]
  | cons q rest ih =>
    intro steps hnd hne hcov
    have hq : q.id ≠ "" := hne q (List.mem_cons_self q rest)
    rw [List.map_cons] at hnd
    obtain ⟨hqnotmem, hndrest⟩ := List.nodup_cons.mp hnd
    have hrestne : ∀ p ∈ rest, p.id ≠ q.id := by
      intro p hp heq
      exact hqnotmem (heq ▸ List.mem_map.mpr ⟨p, hp, rfl⟩)
    simp only [collectSteps, if_neg hq]
    rw [collectSteps_filter_ne steps q.id rest hrestne]
    have hcov' : ∀ s ∈ steps.filter (fun s => !(s.phase_id == q.id)),
        s.phase_id ∈ rest.map Phase.id := by
      intro s hs
      obtain ⟨hsmem, hsne⟩ := List.mem_filter.mp hs
      have := hcov s hsmem
      rw [List.map_cons] at this
      rcases List.mem_cons.mp this with heq | hmem
      · exfalso
        simp only [Bool.not_eq_true', beq_eq_false_iff_ne, ne_eq] at hsne
        exact hsne heq
      · exact hmem
    have hne' : ∀ p ∈ rest, p.id ≠ "" := fun p hp => hne p (List.mem_cons_of_mem q hp)
    have h1 := sortedByKey_perm Step.sequence_order
      (steps.filter (fun s => s.phase_id == q.id))
    have h2 := ih (steps.filter (fun s => !(s.phase_id == q.id))) hndrest hne' hcov'
    exact (h1.append h2).trans
      (List.filter_append_perm (fun s => s.phase_id == q.id) steps)

theorem find?_eq_of_nodup_ids :
    ∀ (phases : List Phase), (phases.map Phase.id).Nodup →
      ∀ ph ∈ phases, phases.find? (fun p => p.id == ph.id) = some ph := by
  intro phases
  induction phases with
  | nil => intro _ ph hph; simp at hph
  | cons q rest ih =>
    intro hnd ph hph
    rw [List.map_cons] at hnd
    obtain ⟨hqnotmem, hndrest⟩ := List.nodup_cons.mp hnd
    rcases List.mem_cons.mp hph with rfl | hmem
    · simp [List.find?_cons]
    · have hne : ¬ (q.id == ph.id) = true := by
        simp only [beq_iff_eq]
        intro heq
        exact hqnotmem (heq ▸ List.mem_map.mpr ⟨ph, hmem, rfl⟩)
      rw [List.find?_cons]
      simp only [hne]
      exact ih hndrest ph hmem

theorem phaseOrderOf_mem {phases : List Phase} (hnd : (phases.map Phase.id).Nodup)
    {ph : Phase} (hph : ph ∈ phases) :
    phaseOrderOf phases ph.id = ph.sequence_order := by
  unfold phaseOrderOf
  rw [find?_eq_of_nodup_ids phases hnd ph hph]

theorem collectSteps_pairwise (phases : List Phase) (steps : List Step)
    (hnd : (phases.map Phase.id).Nodup) :
    ∀ PS : List Phase, (∀ q ∈ PS, q ∈ phases) → (∀ q ∈ PS, q.id ≠ "") →
      PS.Pairwise (fun p q => p.sequence_order < q.sequence_order) →
      (collectSteps steps PS).Pairwise (stepKeyLe phases) := by
  intro PS
  induction PS with
  | nil => intro _ _ _; simp [collectSteps]
  | cons q rest ih =>
    intro hsub hne hpw
    have hq : q.id ≠ "" := hne q (List.mem_cons_self q rest)
    have hqmem : q ∈ phases := hsub q (List.mem_cons_self q rest)
    obtain ⟨hlt, hpwrest⟩ := List.pairwise_cons.mp hpw
    simp only [collectSteps, if_neg hq]
    rw [List.pairwise_append]
    refine ⟨?_, ?_, ?_⟩
    · -- within the block: equal phase order, ascending step order
      have hsorted := sortedByKey_sorted Step.sequence_order
        (steps.filter (fun s => s.phase_id == q.id))
      refine hsorted.imp_of_mem ?_
      intro s t hs ht hle
      have hsphase : s.phase_id = q.id := by
        have := (List.mem_filter.mp (mem_sortedByKey.mp hs)).2
        simpa [beq_iff_eq] using this
      have htphase : t.phase_id = q.id := by
        have := (List.mem_filter.mp (mem_sortedByKey.mp ht)).2
        simpa [beq_iff_eq] using this
      right
      rw [hsphase, htphase]
      exact ⟨rfl, hle⟩
    · exact ih (fun p hp => hsub p (List.mem_cons_of_mem q hp))
        (fun p hp => hne p (List.mem_cons_of_mem q hp)) hpwrest
    · -- across blocks: strictly increasing phase order
      intro s hs t ht
      obtain ⟨q', hq', htmem, htphase⟩ := mem_collectSteps ht
      have hsphase : s.phase_id = q.id := by
        have := (List.mem_filter.mp (mem_sortedByKey.mp hs)).2
        simpa [beq_iff_eq] using this
      left
      rw [hsphase, htphase, phaseOrderOf_mem hnd hqmem,
        phaseOrderOf_mem hnd (hsub q' (List.mem_cons_of_mem q hq'))]
      exact hlt q' hq'

/-- The canonical order is a permutation of the journey's steps and is
sorted by (phase `sequence_order`, step `sequence_order`), under the
well-formedness assumptions on ids and orders. -/
theorem orderedSteps_spec (phases : List Phase) (steps : List Step)
    (hnd : (phases.map Phase.id).Nodup)
    (hseq : (phases.map Phase.sequence_order).Nodup)
    (hne : ∀ p ∈ phases, p.id ≠ "")
    (hcov : ∀ s ∈ steps, s.phase_id ∈ phases.map Phase.id) :
    List.Perm (orderedSteps phases steps) steps ∧
      (orderedSteps phases steps).Pairwise (stepKeyLe phases) := by
  have hperm : List.Perm (sortedByKey Phase.sequence_order phases) phases :=
    sortedByKey_perm _ _
  have hndPS : ((sortedByKey Phase.sequence_order phases).map Phase.id).Nodup :=
    ((hperm.map Phase.id).nodup_iff).mpr hnd
  have hnePS : ∀ q ∈ sortedByKey Phase.sequence_order phases, q.id ≠ "" :=
    fun q hq => hne q (hperm.mem_iff.mp hq)
  have hcovPS : ∀ s ∈ steps,
      s.phase_id ∈ (sortedByKey Phase.sequence_order phases).map Phase.id := by
    intro s hs
    have := hcov s hs
    exact ((hperm.map Phase.id).mem_iff).mpr this
  constructor
  · exact collectSteps_perm _ steps hndPS hnePS hcovPS
  · have hseqPS : ((sortedByKey Phase.sequence_order phases).map
        Phase.sequence_order).Nodup :=
      ((hperm.map Phase.sequence_order).nodup_iff).mpr hseq
    have hle := sortedByKey_sorted Phase.sequence_order phases
    have hne' : (sortedByKey Phase.sequence_order phases).Pairwise
        (fun p q => p.sequence_order ≠ q.sequence_order) :=
      List.pairwise_map.mp hseqPS
    have hlt : (sortedByKey Phase.sequence_order phases).Pairwise
        (fun p q => p.sequence_order < q.sequence_order) :=
      (hle.and hne').imp (fun h => lt_of_le_of_ne h.1 h.2)
    exact collectSteps_pairwise phases steps hnd _
      (fun q hq => hperm.mem_iff.mp hq) hnePS hlt

theorem findIdx?_id_eq_of_get {l : List Step} (hnd : (l.map Step.id).Nodup)
    {a : String} {i : Nat} (hi : i < l.length)
    (ha : (l.get ⟨i, hi⟩).id = a) :
    l.findIdx? (fun s => s.id == a) = some i := by
  apply List.findIdx?_eq_some_iff_findIdx_eq.mpr
  refine ⟨hi, (List.findIdx_eq hi).mpr ⟨?_, ?_⟩⟩
  · rw [List.get_eq_getElem] at ha
    simp [beq_iff_eq, ha]
  · intro j hji
    have hj : j < l.length := lt_trans hji hi
    rw [List.get_eq_getElem] at ha
    simp only [beq_eq_false_iff_ne, ne_eq]
    intro heq
    have hmi : i < (l.map Step.id).length := by simpa using hi
    have hmj : j < (l.map Step.id).length := by simpa using hj
    have hmap : (l.map Step.id)[j] = (l.map Step.id)[i] := by
      rw [List.getElem_map, List.getElem_map, heq, ha]
    have := hnd.getElem_inj_iff.mp hmap
    omega

/-- Claim C1 theorem (see `orderedSteps_spec` for the ordering part):
`_compute_continue_step_id_for_subjourney`, for a subjourney with a
non-null anchor, returns the step after the anchor in the canonical
order, the anchor itself when it is last and the parent is a subjourney,
and `none` when it is last in a top-level parent or absent from the
order.  The function is pure (no store argument): it performs no writes. -/
theorem continuation_computer_correct
    (sj pj : Journey) (phases : List Phase) (steps : List Step) (a : String)
    (hndp : (phases.map Phase.id).Nodup)
    (hseq : (phases.map Phase.sequence_order).Nodup)
    (hpne : ∀ p ∈ phases, p.id ≠ "")
    (hcov : ∀ s ∈ steps, s.phase_id ∈ phases.map Phase.id)
    (hnds : (steps.map Step.id).Nodup)
    (hsne : ∀ s ∈ steps, s.id ≠ "")
    (ha : sj.parent_step_id = some a) (hane : a ≠ "") :
    List.Perm (orderedSteps phases steps) steps ∧
    (orderedSteps phases steps).Pairwise (stepKeyLe phases) ∧
    (∀ i (hi : i < (orderedSteps phases steps).length),
      ((orderedSteps phases steps).get ⟨i, hi⟩).id = a →
      computeContinueStepId sj pj phases steps =
        (if h2 : i + 1 < (orderedSteps phases steps).length
         then some (((orderedSteps phases steps).get ⟨i + 1, h2⟩).id)
         else if pj.is_subjourney then some a else none)) ∧
    ((∀ s ∈ steps, s.id ≠ a) → computeContinueStepId sj pj phases steps = none) := by
  obtain ⟨hperm, hpw⟩ := orderedSteps_spec phases steps hndp hseq hpne hcov
  have hndL : ((orderedSteps phases steps).map Step.id).Nodup :=
    ((hperm.map Step.id).nodup_iff).mpr hnds
  refine ⟨hperm, hpw, ?_, ?_⟩
  · intro i hi hgi
    have hfind := findIdx?_id_eq_of_get hndL hi hgi
    unfold computeContinueStepId
    rw [ha]
    simp only [if_neg hane, hfind]
    by_cases h2 : i + 1 < (orderedSteps phases steps).length
    · have hlt : i < (orderedSteps phases steps).length - 1 := by omega
      rw [if_pos hlt, dif_pos h2]
      have hget : (orderedSteps phases steps).get? (i + 1) =
          some ((orderedSteps phases steps).get ⟨i + 1, h2⟩) := by
        rw [List.get?_eq_getElem?, List.getElem?_eq_getElem h2,
          List.get_eq_getElem]
      rw [hget]
      have hmem : (orderedSteps phases steps).get ⟨i + 1, h2⟩ ∈ steps :=
        hperm.mem_iff.mp (List.get_mem _ _ h2)
      exact if_neg (hsne _ hmem)
    · have hlt : ¬ i < (orderedSteps phases steps).length - 1 := by omega
      rw [if_neg hlt, dif_neg h2]
  · intro hnone
    have : ∀ s ∈ orderedSteps phases steps, (fun s => s.id == a) s = false := by
      intro s hs
      simp only [beq_eq_false_iff_ne, ne_eq]
      exact hnone s (hperm.mem_iff.mp hs)
    unfold computeContinueStepId
    rw [ha]
    simp only [if_neg hane, List.findIdx?_eq_none_iff.mpr this]

/-- Concrete parent structure from the spec's §8 example: two phases, three
steps. -/
def exPhases : List Phase := [⟨"P1", "J", 1⟩, ⟨"P2", "J", 2⟩]

def exSteps : List Step :=
  [⟨"S1", "P1", "t", 1⟩, ⟨"S2", "P1", "t", 2⟩, ⟨"S3", "P2", "t", 1⟩]

def exTop : Journey := ⟨"J", "pr", "t", "J", false, none, none, some 1⟩

def exSub : Journey := ⟨"A", "pr", "t", "A", true, some "S1", none, none⟩

/-- Witness for C1: the characterization instantiated on the §8 example
with anchor `S1`. -/
theorem continuation_computer_correct_witness :
    List.Perm (orderedSteps exPhases exSteps) exSteps ∧
    (orderedSteps exPhases exSteps).Pairwise (stepKeyLe exPhases) ∧
    (∀ i (hi : i < (orderedSteps exPhases exSteps).length),
      ((orderedSteps exPhases exSteps).get ⟨i, hi⟩).id = "S1" →
      computeContinueStepId exSub exTop exPhases exSteps =
        (if h2 : i + 1 < (orderedSteps exPhases exSteps).length
         then some (((orderedSteps exPhases exSteps).get ⟨i + 1, h2⟩).id)
         else if exTop.is_subjourney then some "S1" else none)) ∧
    ((∀ s ∈ exSteps, s.id ≠ "S1") →
      computeContinueStepId exSub exTop exPhases exSteps = none) :=
  continuation_computer_correct exSub exTop exPhases exSteps "S1"
    (by decide) (by decide) (by decide) (by decide) (by decide) (by decide)
    rfl (by decide)

/-! ## Characterization of the repair sweep

The validator's decision depends only on the subjourney snapshot and the
pre-fetched structure, never on the evolving store; the sweep is therefore
a `map` over the journeys table.  These lemmas drive every claim about the
sweep. -/

/-- The validator's repair decision: the stored value, string-normalized,
differs from the normalized computed value. -/
def needsFix (sj pj : Journey) (phases : List Phase) (steps : List Step) : Bool :=
  !(pyStrNorm (computeContinueStepId sj pj phases steps) ==
    pyStrNorm sj.continue_step_id)

theorem validateAndFix_eq (db : DB) (sj pj : Journey)
    (phases : List Phase) (steps : List Step) :
    validateAndFixContinueStepId db sj pj phases steps =
      if needsFix sj pj phases steps
      then (writeContinue db sj.id (computeContinueStepId sj pj phases steps), true)
      else (db, false) := by
  by_cases h : pyStrNorm (computeContinueStepId sj pj phases steps) =
      pyStrNorm sj.continue_step_id
  · have hnf : needsFix sj pj phases steps = false := by simp [needsFix, h]
    rw [hnf]
    unfold validateAndFixContinueStepId
    simp [h]
  · have hnf : needsFix sj pj phases steps = true := by simp [needsFix, h]
    rw [hnf]
    unfold validateAndFixContinueStepId
    simp only [if_neg h, if_true]
    cases hcur : pyStrNorm sj.continue_step_id with
    | none => rfl
    | some cur => split <;> first | rfl | (split <;> rfl)

/-- The effect of one validator call on one row of the journeys table. -/
def gFix (pj : Journey) (phases : List Phase) (steps : List Step)
    (sj j : Journey) : Journey :=
  if needsFix sj pj phases steps && (j.id == sj.id)
  then { j with continue_step_id := computeContinueStepId sj pj phases steps }
  else j

/-- The cumulative effect of the sweep's loop on one row. -/
def applyFixes (pj : Journey) (phases : List Phase) (steps : List Step)
    (subs : List Journey) (j : Journey) : Journey :=
  subs.foldl (fun r sj => gFix pj phases steps sj r) j

theorem gFix_id (pj : Journey) (phases : List Phase) (steps : List Step)
    (sj j : Journey) : (gFix pj phases steps sj j).id = j.id := by
  unfold gFix; split <;> rfl

theorem gFix_skeleton (pj : Journey) (phases : List Phase) (steps : List Step)
    (sj j : Journey) :
    (gFix pj phases steps sj j).id = j.id ∧
    (gFix pj phases steps sj j).is_subjourney = j.is_subjourney ∧
    (gFix pj phases steps sj j).parent_step_id = j.parent_step_id ∧
    (gFix pj phases steps sj j).project_id = j.project_id := by
  unfold gFix; split <;> exact ⟨rfl, rfl, rfl, rfl⟩

theorem applyFixes_skeleton (pj : Journey) (phases : List Phase)
    (steps : List Step) (subs : List Journey) (j : Journey) :
    (applyFixes pj phases steps subs j).id = j.id ∧
    (applyFixes pj phases steps subs j).is_subjourney = j.is_subjourney ∧
    (applyFixes pj phases steps subs j).parent_step_id = j.parent_step_id ∧
    (applyFixes pj phases steps subs j).project_id = j.project_id := by
  induction subs generalizing j with
  | nil => exact ⟨rfl, rfl, rfl, rfl⟩
  | cons sj rest ih =>
    have hstep := gFix_skeleton pj phases steps sj j
    have hrest := ih (gFix pj phases steps sj j)
    exact ⟨hrest.1.trans hstep.1, hrest.2.1.trans hstep.2.1,
      hrest.2.2.1.trans hstep.2.2.1, hrest.2.2.2.trans hstep.2.2.2⟩

theorem foldl_validate_eq (pj : Journey) (phases : List Phase) (steps : List Step) :
    ∀ (subs : List Journey) (d : DB),
      subs.foldl (fun d sj => (validateAndFixContinueStepId d sj pj phases steps).1) d =
        { d with journeys := d.journeys.map (applyFixes pj phases steps subs) } := by
  intro subs
  induction subs with
  | nil =>
    intro d
    have : d.journeys.map (applyFixes pj phases steps []) = d.journeys := by
      have : applyFixes pj phases steps [] = id := rfl
      rw [this, List.map_id]
    rw [List.foldl_nil, this]
  | cons sj rest ih =>
    intro d
    rw [List.foldl_cons, ih]
    have hstep : (validateAndFixContinueStepId d sj pj phases steps).1.journeys =
        d.journeys.map (gFix pj phases steps sj) := by
      rw [validateAndFix_eq]
      by_cases h : needsFix sj pj phases steps
      · simp only [if_pos h]
        unfold writeContinue gFix
        refine List.map_congr_left ?_
        intro j _
        simp [h]
      · simp only [if_neg h]
        have h1 : d.journeys.map (gFix pj phases steps sj) = d.journeys.map id :=
          List.map_congr_left (fun j _ => by simp [gFix, h])
        rw [h1, List.map_id]

    have hfields : (validateAndFixContinueStepId d sj pj phases steps).1.projects =
          d.projects ∧
        (validateAndFixContinueStepId d sj pj phases steps).1.phases = d.phases ∧
        (validateAndFixContinueStepId d sj pj phases steps).1.steps = d.steps := by
      rw [validateAndFix_eq]
      split <;> exact ⟨rfl, rfl, rfl⟩
    cases hdb : validateAndFixContinueStepId d sj pj phases steps with
    | mk d1 b =>
      rw [hdb] at hstep hfields
      simp only at hstep hfields
      cases d with
      | mk dp dj dph dst =>
        cases d1 with
        | mk d1p d1j d1ph d1st =>
          simp only at hstep hfields
          obtain ⟨h1, h2, h3⟩ := hfields
          subst h1 h2 h3 hstep
          simp only [DB.mk.injEq, and_true, true_and, List.map_map]
          rfl

theorem applyFixes_of_notin (pj : Journey) (phases : List Phase)
    (steps : List Step) :
    ∀ (subs : List Journey) (j : Journey),
      (∀ sj ∈ subs, sj.id ≠ j.id) → applyFixes pj phases steps subs j = j := by
  intro subs
  induction subs with
  | nil => intro j _; rfl
  | cons sj rest ih =>
    intro j hne
    have hid : sj.id ≠ j.id := hne sj (List.mem_cons_self sj rest)
    have hstep : gFix pj phases steps sj j = j := by
      unfold gFix
      have : (j.id == sj.id) = false := by
        simp only [beq_eq_false_iff_ne, ne_eq]
        exact fun hh => hid hh.symm
      simp [this]
    show applyFixes pj phases steps rest (gFix pj phases steps sj j) = j
    rw [hstep]
    exact ih j (fun s hs => hne s (List.mem_cons_of_mem sj hs))

theorem applyFixes_of_mem (pj : Journey) (phases : List Phase)
    (steps : List Step) :
    ∀ (subs : List Journey) (j : Journey), j ∈ subs →
      (subs.map Journey.id).Nodup →
      applyFixes pj phases steps subs j =
        (if needsFix j pj phases steps
         then { j with continue_step_id := computeContinueStepId j pj phases steps }
         else j) := by
  intro subs
  induction subs with
  | nil => intro j hj; simp at hj
  | cons sj rest ih =>
    intro j hj hnd
    rw [List.map_cons] at hnd
    obtain ⟨hnotmem, hndrest⟩ := List.nodup_cons.mp hnd
    rcases List.mem_cons.mp hj with rfl | hmem
    · show applyFixes pj phases steps rest (gFix pj phases steps j j) = _
      have hrestne : ∀ s ∈ rest, s.id ≠ j.id := by
        intro s hs heq
        exact hnotmem (heq ▸ List.mem_map.mpr ⟨s, hs, rfl⟩)
      by_cases h : needsFix j pj phases steps
      · have hstep : gFix pj phases steps j j =
            { j with continue_step_id := computeContinueStepId j pj phases steps } := by
          simp [gFix, h]
        rw [hstep, if_pos h]
        exact applyFixes_of_notin pj phases steps rest _ (fun s hs => hrestne s hs)
      · have hstep : gFix pj phases steps j j = j := by simp [gFix, h]
        rw [hstep, if_neg h]
        exact applyFixes_of_notin pj phases steps rest j hrestne
    · have hid : sj.id ≠ j.id := by
        intro heq
        exact hnotmem (heq ▸ List.mem_map.mpr ⟨j, hmem, rfl⟩)
      show applyFixes pj phases steps rest (gFix pj phases steps sj j) = _
      have hstep : gFix pj phases steps sj j = j := by
        have : (j.id == sj.id) = false := by
          simp only [beq_eq_false_iff_ne, ne_eq]
          exact fun hh => hid hh.symm
        simp [gFix, this]
      rw [hstep]
      exact ih j hmem hndrest

theorem sweep_eq_of_found {db : DB} {jid : String} {journey : Journey}
    (h : journeyById db jid = some journey) :
    updateContinueStepIdsForJourney db jid =
      { db with
        journeys := db.journeys.map
          (applyFixes journey (journeyPhases db jid) (journeySteps db jid)
            (anchoredSubjourneys db.journeys
              ((journeySteps db jid).map Step.id))) } := by
  unfold updateContinueStepIdsForJourney
  rw [h]
  exact foldl_validate_eq _ _ _ _ db

theorem sweep_eq_of_missing {db : DB} {jid : String}
    (h : journeyById db jid = none) :
    updateContinueStepIdsForJourney db jid = db := by
  unfold updateContinueStepIdsForJourney
  rw [h]

theorem sweep_fields (db : DB) (jid : String) :
    (updateContinueStepIdsForJourney db jid).projects = db.projects ∧
    (updateContinueStepIdsForJourney db jid).phases = db.phases ∧
    (updateContinueStepIdsForJourney db jid).steps = db.steps := by
  cases h : journeyById db jid with
  | none => rw [sweep_eq_of_missing h]; exact ⟨rfl, rfl, rfl⟩
  | some journey => rw [sweep_eq_of_found h]; exact ⟨rfl, rfl, rfl⟩

theorem computeContinueStepId_congr {sj sj' pj pj' : Journey}
    (phases : List Phase) (steps : List Step)
    (h1 : sj.parent_step_id = sj'.parent_step_id)
    (h2 : pj.is_subjourney = pj'.is_subjourney) :
    computeContinueStepId sj pj phases steps =
      computeContinueStepId sj' pj' phases steps := by
  unfold computeContinueStepId
  rw [h1, h2]

theorem journeyPhases_congr {db db' : DB} (h : db.phases = db'.phases)
    (jid : String) : journeyPhases db jid = journeyPhases db' jid := by
  unfold journeyPhases
  rw [h]

theorem journeySteps_congr {db db' : DB} (hp : db.phases = db'.phases)
    (hs : db.steps = db'.steps) (jid : String) :
    journeySteps db jid = journeySteps db' jid := by
  unfold journeySteps
  rw [journeyPhases_congr hp, hs]

theorem journeyById_map {l : List Journey} {f : Journey → Journey}
    (hf : ∀ j, (f j).id = j.id) (jid : String) :
    ((l.map f).filter (fun j => j.id == jid)).head? =
      Option.map f ((l.filter (fun j => j.id == jid)).head?) := by
  rw [List.filter_map]
  have : (l.filter ((fun j => j.id == jid) ∘ f)) =
      l.filter (fun j => j.id == jid) := by
    refine List.filter_congr ?_
    intro j _
    simp [Function.comp, hf j]
  rw [this, List.head?_map]

theorem mem_anchoredSubjourneys {l : List Journey} {ids : List String}
    {j : Journey} :
    j ∈ anchoredSubjourneys l ids ↔
      j ∈ l ∧ j.is_subjourney = true ∧
        ∃ a, j.parent_step_id = some a ∧ a ∈ ids := by
  unfold anchoredSubjourneys
  rw [List.mem_filter]
  constructor
  · rintro ⟨hmem, hcond⟩
    rw [Bool.and_eq_true] at hcond
    refine ⟨hmem, hcond.1, ?_⟩
    cases hpar : j.parent_step_id with
    | none => rw [hpar] at hcond; exact absurd hcond.2 (by simp)
    | some a =>
      rw [hpar] at hcond
      exact ⟨a, rfl, List.elem_iff.mp hcond.2⟩
  · rintro ⟨hmem, hsub, a, hpar, hin⟩
    refine ⟨hmem, ?_⟩
    rw [Bool.and_eq_true, hpar]
    exact ⟨hsub, List.elem_iff.mpr hin⟩

theorem anchoredSubjourneys_map {l : List Journey} {f : Journey → Journey}
    (hsub : ∀ j, (f j).is_subjourney = j.is_subjourney)
    (hpar : ∀ j, (f j).parent_step_id = j.parent_step_id)
    (ids : List String) :
    anchoredSubjourneys (l.map f) ids = (anchoredSubjourneys l ids).map f := by
  unfold anchoredSubjourneys
  rw [List.filter_map]
  congr 1
  refine List.filter_congr ?_
  intro j _
  simp only [Function.comp, hsub j, hpar j]

theorem anchoredSubjourneys_ids_nodup {l : List Journey} {ids : List String}
    (hnd : (l.map Journey.id).Nodup) :
    ((anchoredSubjourneys l ids).map Journey.id).Nodup :=
  ((List.filter_sublist l).map Journey.id).nodup hnd

theorem eq_of_mem_of_id {l : List Journey} (hnd : (l.map Journey.id).Nodup)
    {x y : Journey} (hx : x ∈ l) (hy : y ∈ l) (h : x.id = y.id) : x = y :=
  List.inj_on_of_nodup_map hnd hx hy h

theorem needsFix_after_fix (sj pj : Journey) (phases : List Phase)
    (steps : List Step) (sj1 : Journey)
    (hfix : sj1 = (if needsFix sj pj phases steps
      then { sj with continue_step_id := computeContinueStepId sj pj phases steps }
      else sj)) :
    needsFix sj1 pj phases steps = false := by
  have hpar : sj1.parent_step_id = sj.parent_step_id := by
    rw [hfix]; split <;> rfl
  have hcomp : computeContinueStepId sj1 pj phases steps =
      computeContinueStepId sj pj phases steps :=
    computeContinueStepId_congr phases steps hpar rfl
  by_cases h : needsFix sj pj phases steps
  · have hcont : sj1.continue_step_id = computeContinueStepId sj pj phases steps := by
      rw [hfix, if_pos h]
    unfold needsFix
    rw [hcomp, hcont]
    simp
  · have hsj : sj1 = sj := by rw [hfix, if_neg h]
    rw [hsj]
    simpa using h

theorem foldl_validate_id (pj : Journey) (phases : List Phase) (steps : List Step) :
    ∀ (subs : List Journey) (d : DB),
      (∀ sj ∈ subs, needsFix sj pj phases steps = false) →
      subs.foldl (fun d sj => (validateAndFixContinueStepId d sj pj phases steps).1) d = d := by
  intro subs
  induction subs with
  | nil => intro d _; rfl
  | cons sj rest ih =>
    intro d h
    rw [List.foldl_cons, validateAndFix_eq]
    rw [h sj (List.mem_cons_self sj rest)]
    simp only [Bool.false_eq_true, if_false]
    exact ih d (fun s hs => h s (List.mem_cons_of_mem sj hs))

/-- Running `_update_continue_step_ids_for_journey` a second time on the
resulting (otherwise unchanged) store performs no further writes. -/
theorem sweep_idempotent (db : DB) (jid : String)
    (hnd : (db.journeys.map Journey.id).Nodup) :
    updateContinueStepIdsForJourney (updateContinueStepIdsForJourney db jid) jid =
      updateContinueStepIdsForJourney db jid := by
  cases h : journeyById db jid with
  | none =>
    rw [sweep_eq_of_missing h, sweep_eq_of_missing h]
  | some journey =>
    have hdb1 := sweep_eq_of_found h
    set phases := journeyPhases db jid with hphases
    set steps := journeySteps db jid with hsteps
    set subs := anchoredSubjourneys db.journeys (steps.map Step.id) with hsubs
    set F := applyFixes journey phases steps subs with hF
    have hFid : ∀ j, (F j).id = j.id := fun j => (applyFixes_skeleton _ _ _ _ j).1
    have hFsub : ∀ j, (F j).is_subjourney = j.is_subjourney :=
      fun j => (applyFixes_skeleton _ _ _ _ j).2.1
    have hFpar : ∀ j, (F j).parent_step_id = j.parent_step_id :=
      fun j => (applyFixes_skeleton _ _ _ _ j).2.2.1
    set db1 := updateContinueStepIdsForJourney db jid with hdb1def
    have hjourneys1 : db1.journeys = db.journeys.map F := by rw [hdb1]
    have hphases1 : db1.phases = db.phases := by rw [hdb1]
    have hsteps1 : db1.steps = db.steps := by rw [hdb1]
    have hfound1 : journeyById db1 jid = some (F journey) := by
      unfold journeyById
      rw [hjourneys1, journeyById_map hFid]
      have : journeyById db jid = some journey := h
      unfold journeyById at this
      rw [this]
      rfl
    have hph1 : journeyPhases db1 jid = phases := by
      rw [hphases, journeyPhases_congr hphases1]
    have hst1 : journeySteps db1 jid = steps := by
      rw [hsteps, journeySteps_congr hphases1 hsteps1]
    have hsubs1 : anchoredSubjourneys db1.journeys (steps.map Step.id) =
        subs.map F := by
      rw [hjourneys1, anchoredSubjourneys_map hFsub hFpar, hsubs]
    have hdb2 := sweep_eq_of_found hfound1
    rw [hph1, hst1] at hdb2
    rw [hsubs1] at hdb2
    have hmapid : db1.journeys.map
        (applyFixes (F journey) phases steps (subs.map F)) = db1.journeys := by
      have hpt : ∀ j1 ∈ db1.journeys,
          applyFixes (F journey) phases steps (subs.map F) j1 = j1 := by
        intro j1 hj1
        rw [hjourneys1] at hj1
        obtain ⟨j, hj, rfl⟩ := List.mem_map.mp hj1
        by_cases hin : j ∈ subs
        · have hndsubs : (subs.map Journey.id).Nodup :=
            anchoredSubjourneys_ids_nodup hnd
          have hndsubsF : ((subs.map F).map Journey.id).Nodup := by
            rw [List.map_map]
            have : subs.map (Journey.id ∘ F) = subs.map Journey.id :=
              List.map_congr_left (fun x _ => hFid x)
            rw [this]
            exact hndsubs
          have hFval := applyFixes_of_mem journey phases steps subs j hin hndsubs
          have hfix := needsFix_after_fix j journey phases steps (F j) hFval
          have hcongr : computeContinueStepId (F j) (F journey) phases steps =
              computeContinueStepId (F j) journey phases steps :=
            computeContinueStepId_congr phases steps rfl (hFsub journey)
          have hfix2 : needsFix (F j) (F journey) phases steps = false := by
            unfold needsFix at hfix ⊢
            rw [hcongr]
            exact hfix
          rw [applyFixes_of_mem (F journey) phases steps (subs.map F) (F j)
            (List.mem_map_of_mem F hin) hndsubsF, if_neg (by simp [hfix2])]
        · have hne : ∀ sj1 ∈ subs.map F, sj1.id ≠ (F j).id := by
            intro sj1 hsj1 heq
            obtain ⟨sj, hsj, rfl⟩ := List.mem_map.mp hsj1
            rw [hFid sj, hFid j] at heq
            have hsjmem : sj ∈ db.journeys :=
              (mem_anchoredSubjourneys.mp hsj).1
            have := eq_of_mem_of_id hnd hsjmem hj heq
            exact hin (this ▸ hsj)
          exact applyFixes_of_notin (F journey) phases steps (subs.map F) (F j) hne
      calc db1.journeys.map (applyFixes (F journey) phases steps (subs.map F))
          = db1.journeys.map id := List.map_congr_left (fun j hj => hpt j hj)
        _ = db1.journeys := List.map_id _
    rw [hdb2, hmapid]

/-- Claim C3: the validator/repairer is idempotent.  After one invocation
of `_validate_and_fix_continue_step_id` on a subjourney, every further
invocation on the (re-fetched) subjourney row with the structure unchanged
returns `false` ("unchanged") and leaves the store untouched; and running
the journey-scoped repair sweep twice in a row yields no change the second
time. -/
theorem validate_and_fix_idempotent (db : DB) (sj pj : Journey)
    (phases : List Phase) (steps : List Step) (jid : String)
    (hnd : (db.journeys.map Journey.id).Nodup) (hmem : sj ∈ db.journeys) :
    (∀ sj1 ∈ (validateAndFixContinueStepId db sj pj phases steps).1.journeys,
      sj1.id = sj.id →
      validateAndFixContinueStepId
          (validateAndFixContinueStepId db sj pj phases steps).1 sj1 pj phases steps =
        ((validateAndFixContinueStepId db sj pj phases steps).1, false)) ∧
    updateContinueStepIdsForJourney (updateContinueStepIdsForJourney db jid) jid =
      updateContinueStepIdsForJourney db jid := by
  refine ⟨?_, sweep_idempotent db jid hnd⟩
  intro sj1 hsj1 hid
  rw [validateAndFix_eq] at hsj1 ⊢
  rw [validateAndFix_eq]
  by_cases h : needsFix sj pj phases steps
  · rw [if_pos h] at hsj1 ⊢
    simp only [writeContinue] at hsj1
    obtain ⟨j, hj, hjeq⟩ := List.mem_map.mp hsj1
    have hjid : j.id = sj.id := by
      rw [← hid, ← hjeq]
      split <;> rfl
    have hjsj : j = sj := eq_of_mem_of_id hnd hj hmem hjid
    subst hjsj
    have hsj1val : sj1 =
        { j with
          continue_step_id := computeContinueStepId j pj phases steps } := by
      rw [← hjeq]
      simp
    have hfix : needsFix sj1 pj phases steps = false := by
      refine needsFix_after_fix j pj phases steps sj1 ?_
      rw [if_pos h]
      exact hsj1val
    rw [if_neg (by simp [hfix])]
  · rw [if_neg h] at hsj1 ⊢
    have hsj1val : sj1 = sj := eq_of_mem_of_id hnd hsj1 hmem hid
    subst hsj1val
    rw [if_neg h]

/-- A store with one top-level journey (steps `A`, `B`) and one subjourney
anchored at `A` whose stored continuation is stale (`A` instead of `B`). -/
def dbIdem : DB :=
  { projects := [⟨"pr", "t"⟩],
    journeys :=
      [ ⟨"J", "pr", "t", "J", false, none, none, some 1⟩,
        ⟨"SJ", "pr", "t", "SJ", true, some "A", some "A", none⟩ ],
    phases := [⟨"P1", "J", 1⟩],
    steps := [⟨"A", "P1", "t", 1⟩, ⟨"B", "P1", "t", 2⟩] }

def sjIdem : Journey := ⟨"SJ", "pr", "t", "SJ", true, some "A", some "A", none⟩

def jIdem : Journey := ⟨"J", "pr", "t", "J", false, none, none, some 1⟩

/-- Witness for C3: sweeping the concrete store twice equals sweeping it
once. -/
theorem validate_and_fix_idempotent_witness :
    updateContinueStepIdsForJourney (updateContinueStepIdsForJourney dbIdem "J") "J" =
      updateContinueStepIdsForJourney dbIdem "J" :=
  (validate_and_fix_idempotent dbIdem sjIdem jIdem [] [] "J"
    (by decide) (by decide)).2

/-! ## Claim C5 — missing anchors

The sweep and the structure read only select subjourneys whose
`parent_step_id` lies in the journey's current step-id set
(`.in_("parent_step_id", step_ids)`); a subjourney whose anchor is gone is
therefore never passed to the validator, and its stale stored value is
left in place. -/

theorem mem_orderedSteps_sub {phases : List Phase} {steps : List Step}
    {x : Step} (h : x ∈ orderedSteps phases steps) : x ∈ steps := by
  obtain ⟨q, hq, hx, hph⟩ := mem_collectSteps h
  exact hx

theorem structureFold_db (journey : Journey) (phases : List Phase)
    (all_steps : List Step) :
    ∀ (subs : List Journey) (acc : DB × List (String × Option String)),
      (subs.foldl (structureRepairStep journey phases all_steps) acc).1 =
        subs.foldl
          (fun d sj => (validateAndFixContinueStepId d sj journey phases all_steps).1)
          acc.1 := by
  intro subs
  induction subs with
  | nil => intro acc; rfl
  | cons sj rest ih =>
    intro acc
    rw [List.foldl_cons, List.foldl_cons, ih]
    rfl

/-- The store component of `get_journey_structure` is exactly the repair
sweep restricted to the subjourneys it loaded. -/
theorem structureRepair_db_eq_of_found {db : DB} {jid : String} {journey : Journey}
    (h : journeyById db jid = some journey) :
    (getJourneyStructureRepair db jid true).2 =
      { db with
        journeys := db.journeys.map
          (applyFixes journey (journeyPhases db jid) (journeySteps db jid)
            (if ((journeySteps db jid).map Step.id).isEmpty then []
             else anchoredSubjourneys db.journeys
               ((journeySteps db jid).map Step.id))) } := by
  unfold getJourneyStructureRepair
  rw [h]
  simp only
  rw [structureFold_db]
  by_cases he : ((journeySteps db jid).map Step.id).isEmpty
  · rw [if_pos he]
    simp only [he, Bool.true_and, Bool.not_true]
    rw [if_neg (by simp)]
    exact foldl_validate_eq _ _ _ [] db
  · rw [if_neg he]
    have : (true && !((journeySteps db jid).map Step.id).isEmpty) = true := by
      simp [he]
    rw [if_pos this]
    exact foldl_validate_eq _ _ _ _ db

/-- Claim C5 theorem (amended): a missing anchor computes a null
continuation, but neither the journey-scoped sweep nor the structure read
selects such a subjourney: its row — stale stored value included — appears
unchanged in the store both repairs produce. -/
theorem missing_anchor_computes_null_but_unrepaired
    (db : DB) (jid : String) (sj pj : Journey)
    (phases : List Phase) (steps : List Step) (a : String)
    (hnd : (db.journeys.map Journey.id).Nodup) :
    (sj.parent_step_id = some a → (∀ s ∈ steps, s.id ≠ a) →
      computeContinueStepId sj pj phases steps = none) ∧
    (∀ j ∈ db.journeys,
      (∀ x, j.parent_step_id = some x → x ∉ (journeySteps db jid).map Step.id) →
      j ∈ (updateContinueStepIdsForJourney db jid).journeys ∧
        j ∈ ((getJourneyStructureRepair db jid true).2).journeys) := by
  constructor
  · intro ha hno
    have hnone : (orderedSteps phases steps).findIdx? (fun s => s.id == a) = none := by
      apply List.findIdx?_eq_none_iff.mpr
      intro x hx
      simp only [beq_eq_false_iff_ne, ne_eq]
      exact hno x (mem_orderedSteps_sub hx)
    by_cases hae : a = ""
    · simp [computeContinueStepId, ha, hae]
    · simp [computeContinueStepId, ha, hae, hnone]
  · intro j hj hcond
    have hnotin : ∀ sj1 ∈ anchoredSubjourneys db.journeys
        ((journeySteps db jid).map Step.id), sj1.id ≠ j.id := by
      intro sj1 hsj1 heq
      obtain ⟨hsj1mem, _, x, hpar, hxin⟩ := mem_anchoredSubjourneys.mp hsj1
      have hsj1j : sj1 = j := eq_of_mem_of_id hnd hsj1mem hj heq
      exact hcond x (hsj1j ▸ hpar) hxin
    constructor
    · cases h : journeyById db jid with
      | none => rw [sweep_eq_of_missing h]; exact hj
      | some journey =>
        rw [sweep_eq_of_found h]
        have : applyFixes journey (journeyPhases db jid) (journeySteps db jid)
            (anchoredSubjourneys db.journeys ((journeySteps db jid).map Step.id)) j = j :=
          applyFixes_of_notin _ _ _ _ j hnotin
        exact this ▸ List.mem_map_of_mem _ hj
    · cases h : journeyById db jid with
      | none =>
        unfold getJourneyStructureRepair
        rw [h]
        exact hj
      | some journey =>
        rw [structureRepair_db_eq_of_found h]
        by_cases he : ((journeySteps db jid).map Step.id).isEmpty
        · rw [if_pos he]
          have : applyFixes journey (journeyPhases db jid) (journeySteps db jid) [] j = j :=
            rfl
          exact this ▸ List.mem_map_of_mem _ hj
        · rw [if_neg he]
          have : applyFixes journey (journeyPhases db jid) (journeySteps db jid)
              (anchoredSubjourneys db.journeys
                ((journeySteps db jid).map Step.id)) j = j :=
            applyFixes_of_notin _ _ _ _ j hnotin
          exact this ▸ List.mem_map_of_mem _ hj

/-- A store whose subjourney `SJ` has a dangling anchor (`ZZZ`) and a stale
stored continuation (`A`). -/
def dbC5 : DB :=
  { projects := [⟨"pr", "t"⟩],
    journeys :=
      [ ⟨"J", "pr", "t", "J", false, none, none, some 1⟩,
        ⟨"SJ", "pr", "t", "SJ", true, some "ZZZ", some "A", none⟩ ],
    phases := [⟨"P", "J", 1⟩],
    steps := [⟨"A", "P", "t", 1⟩] }

def sjC5 : Journey := ⟨"SJ", "pr", "t", "SJ", true, some "ZZZ", some "A", none⟩

def jC5 : Journey := ⟨"J", "pr", "t", "J", false, none, none, some 1⟩

/-- Counterexample to C5 as stated: the computed continuation is null, yet
the journey-scoped sweep and the structure read leave the store — and in
particular `SJ`'s stored `continue_step_id = some "A"` — completely
unchanged: no repair ever writes the null. -/
theorem missing_anchor_never_written_counterexample :
    computeContinueStepId sjC5 jC5 (journeyPhases dbC5 "J") (journeySteps dbC5 "J") =
      none ∧
    sjC5 ∈ dbC5.journeys ∧ sjC5.continue_step_id = some "A" ∧
    updateContinueStepIdsForJourney dbC5 "J" = dbC5 ∧
    (getJourneyStructureRepair dbC5 "J" true).2 = dbC5 := by
  refine ⟨by decide, by decide, rfl, by decide, by decide⟩

/-- Witness for C5 (amended): the theorem applied to the concrete store. -/
theorem missing_anchor_witness :
    computeContinueStepId sjC5 jC5 (journeyPhases dbC5 "J") (journeySteps dbC5 "J") =
      none ∧
    sjC5 ∈ (updateContinueStepIdsForJourney dbC5 "J").journeys ∧
    sjC5 ∈ ((getJourneyStructureRepair dbC5 "J" true).2).journeys := by
  have h := missing_anchor_computes_null_but_unrepaired dbC5 "J" sjC5 jC5
    (journeyPhases dbC5 "J") (journeySteps dbC5 "J") "ZZZ" (by decide)
  have h2 := h.2 sjC5 (by decide) (by decide)
  exact ⟨h.1 rfl (by decide), h2.1, h2.2⟩

/-! ## Claim C8 — foreign ids in reorder requests -/

/-- Claim C8: a reorder request whose id list names an id not belonging to
the target phase (resp. journey) is rejected with HTTP 400 before any
write: the store is returned untouched, so no `sequence_order` changes and
no repair sweep runs. -/
theorem reorder_rejects_foreign_ids (db : DB) :
    (∀ pid ids x phase j0,
      (db.phases.filter (fun p => p.id == pid)).head? = some phase →
      journeyById db phase.journey_id = some j0 →
      x ∈ ids →
      (∀ s ∈ db.steps, s.id = x → s.phase_id ≠ pid) →
      reorderSteps db pid ids = (Except.error 400, db)) ∧
    (∀ jid ids x j0,
      journeyById db jid = some j0 →
      x ∈ ids →
      (∀ p ∈ db.phases, p.id = x → p.journey_id ≠ jid) →
      reorderPhases db jid ids = (Except.error 400, db)) := by
  constructor
  · intro pid ids x phase j0 hphase hj0 hx hforeign
    unfold reorderSteps
    have hne : ids.isEmpty = false :=
      List.isEmpty_eq_false.mpr (List.ne_nil_of_mem hx)
    simp only [hphase, hj0, hne, Bool.false_eq_true, if_false]
    have hall : (ids.all (fun y =>
        ((db.steps.filter (fun s => ids.contains s.id && s.phase_id == pid)).map
          Step.id).contains y)) = false := by
      apply List.all_eq_false.mpr
      refine ⟨x, hx, ?_⟩
      simp only [Bool.not_eq_true]
      apply Bool.eq_false_iff.mpr
      intro hcontains
      have hxmem := List.elem_iff.mp hcontains
      obtain ⟨s, hs, hsid⟩ := List.mem_map.mp hxmem
      obtain ⟨hsmem, hcond⟩ := List.mem_filter.mp hs
      rw [Bool.and_eq_true, beq_iff_eq] at hcond
      exact hforeign s hsmem hsid hcond.2
    simp only [hall, Bool.not_false, if_true]
  · intro jid ids x j0 hj0 hx hforeign
    unfold reorderPhases
    have hne : ids.isEmpty = false :=
      List.isEmpty_eq_false.mpr (List.ne_nil_of_mem hx)
    simp only [hj0, hne, Bool.false_eq_true, if_false]
    have hall : (ids.all (fun y =>
        ((db.phases.filter (fun p => ids.contains p.id && p.journey_id == jid)).map
          Phase.id).contains y)) = false := by
      apply List.all_eq_false.mpr
      refine ⟨x, hx, ?_⟩
      simp only [Bool.not_eq_true]
      apply Bool.eq_false_iff.mpr
      intro hcontains
      have hxmem := List.elem_iff.mp hcontains
      obtain ⟨p, hp, hpid⟩ := List.mem_map.mp hxmem
      obtain ⟨hpmem, hcond⟩ := List.mem_filter.mp hp
      rw [Bool.and_eq_true, beq_iff_eq] at hcond
      exact hforeign p hpmem hpid hcond.2
    simp only [hall, Bool.not_false, if_true]

/-- A store used by the C8 witness. -/
def dbC8 : DB :=
  { projects := [⟨"pr", "t"⟩],
    journeys := [⟨"J", "pr", "t", "J", false, none, none, some 1⟩],
    phases := [⟨"P", "J", 1⟩],
    steps := [⟨"A", "P", "t", 1⟩] }

/-- Witness for C8: a reorder naming the foreign step id `X` (resp. phase
id `Y`) is rejected with 400 and the store is unchanged. -/
theorem reorder_rejects_foreign_ids_witness :
    reorderSteps dbC8 "P" ["A", "X"] = (Except.error 400, dbC8) ∧
    reorderPhases dbC8 "J" ["Y"] = (Except.error 400, dbC8) :=
  ⟨(reorder_rejects_foreign_ids dbC8).1 "P" ["A", "X"] "X" ⟨"P", "J", 1⟩
      ⟨"J", "pr", "t", "J", false, none, none, some 1⟩ (by decide) (by decide)
      (by decide) (by decide),
   (reorder_rejects_foreign_ids dbC8).2 "J" ["Y"] "Y"
      ⟨"J", "pr", "t", "J", false, none, none, some 1⟩ (by decide) (by decide)
      (by decide)⟩

/-! ## Claim C9 — the subjourney invariant at creation -/

/-- Claim C9 theorem (amended): `create_journey` stores the request's
`is_subjourney` and `parent_step_id` verbatim, with no validation tying
them together; the created record satisfies the invariant exactly when the
request does. -/
theorem create_journey_passthrough (db : DB) (req : JourneyCreate)
    (nid : String) (row : Journey) (db2 : DB)
    (h : createJourney db req nid = (Except.ok row, db2)) :
    row.is_subjourney = req.is_subjourney ∧
    row.parent_step_id = req.parent_step_id ∧
    row ∈ db2.journeys ∧
    ((req.is_subjourney = true ↔ req.parent_step_id ≠ none) →
      (row.is_subjourney = true ↔ row.parent_step_id ≠ none)) := by
  unfold createJourney at h
  cases hproj : (db.projects.filter (fun p => p.id == req.project_id)).head? with
  | none => rw [hproj] at h; simp at h
  | some proj =>
    rw [hproj] at h
    simp only [Prod.mk.injEq, Except.ok.injEq] at h
    obtain ⟨hrow, hdb2⟩ := h
    subst hrow
    refine ⟨rfl, rfl, ?_, ?_⟩
    · rw [← hdb2]
      simp
    · intro hinv
      exact hinv

/-- The empty-project store used by the C9 counterexample and witness. -/
def dbC9 : DB :=
  { projects := [⟨"pr", "t"⟩], journeys := [], phases := [], steps := [] }

/-- Counterexample to C9 as stated: `create_journey` accepts
`is_subjourney = true` with `parent_step_id = null` and persists exactly
that, producing a journey record that violates the invariant. -/
theorem create_journey_invariant_counterexample :
    (createJourney dbC9
      { project_id := "pr", name := "X", is_subjourney := true,
        parent_step_id := none, continue_step_id := none } "newid").1 =
      Except.ok ⟨"newid", "pr", "t", "X", true, none, none, none⟩ ∧
    (⟨"newid", "pr", "t", "X", true, none, none, none⟩ : Journey).is_subjourney = true ∧
    (⟨"newid", "pr", "t", "X", true, none, none, none⟩ : Journey).parent_step_id = none := by
  refine ⟨by decide, rfl, rfl⟩

def reqC9 : JourneyCreate :=
  { project_id := "pr", name := "Y", is_subjourney := false,
    parent_step_id := none, continue_step_id := none }

def rowC9 : Journey := ⟨"j2", "pr", "t", "Y", false, none, none, some 1⟩

def dbC9b : DB :=
  { projects := [⟨"pr", "t"⟩], journeys := [rowC9], phases := [], steps := [] }

/-- Witness for C9 (amended): a request that satisfies the invariant
yields a stored row that satisfies it. -/
theorem create_journey_passthrough_witness :
    rowC9.is_subjourney = reqC9.is_subjourney ∧
    rowC9.parent_step_id = reqC9.parent_step_id ∧
    rowC9 ∈ dbC9b.journeys ∧
    ((reqC9.is_subjourney = true ↔ reqC9.parent_step_id ≠ none) →
      (rowC9.is_subjourney = true ↔ rowC9.parent_step_id ≠ none)) :=
  create_journey_passthrough dbC9 reqC9 "j2" rowC9 dbC9b (by decide)

/-! ## Claim C10 — renumbering after step deletion -/

/-- The cumulative effect of a `renumberSteps` loop on a single step row. -/
def stepRenum (phase_id : String) (ps : List (Nat × String)) (s : Step) : Step :=
  ps.foldl
    (fun r p =>
      if r.id == p.2 && r.phase_id == phase_id
      then { r with sequence_order := (p.1 : Int) + 1 } else r) s

theorem renumberFold_eq (phase_id : String) :
    ∀ (ps : List (Nat × String)) (d : DB),
      ps.foldl
        (fun d p =>
          { d with steps := d.steps.map (fun s =>
              if s.id == p.2 && s.phase_id == phase_id
              then { s with sequence_order := (p.1 : Int) + 1 } else s) }) d =
        { d with steps := d.steps.map (stepRenum phase_id ps) } := by
  intro ps
  induction ps with
  | nil =>
    intro d
    have : d.steps.map (stepRenum phase_id []) = d.steps := by
      have h : stepRenum phase_id [] = id := rfl
      rw [h, List.map_id]
    rw [List.foldl_nil, this]
  | cons p rest ih =>
    intro d
    rw [List.foldl_cons, ih]
    simp only [List.map_map]
    rfl

theorem renumberSteps_eq (phase_id : String) (ids : List String) (db : DB) :
    renumberSteps phase_id ids db =
      { db with steps := db.steps.map (stepRenum phase_id ids.enum) } :=
  renumberFold_eq phase_id ids.enum db

theorem stepRenum_id_phase (phase_id : String) :
    ∀ (ps : List (Nat × String)) (s : Step),
      (stepRenum phase_id ps s).id = s.id ∧
        (stepRenum phase_id ps s).phase_id = s.phase_id := by
  intro ps
  induction ps with
  | nil => intro s; exact ⟨rfl, rfl⟩
  | cons p rest ih =>
    intro s
    show ((stepRenum phase_id rest) _).id = s.id ∧ _
    have hstep : (if s.id == p.2 && s.phase_id == phase_id
        then { s with sequence_order := (p.1 : Int) + 1 } else s).id = s.id ∧
        (if s.id == p.2 && s.phase_id == phase_id
        then { s with sequence_order := (p.1 : Int) + 1 } else s).phase_id =
          s.phase_id := by
      split <;> exact ⟨rfl, rfl⟩
    have := ih (if s.id == p.2 && s.phase_id == phase_id
        then { s with sequence_order := (p.1 : Int) + 1 } else s)
    exact ⟨this.1.trans hstep.1, this.2.trans hstep.2⟩

theorem stepRenum_of_notin (phase_id : String) :
    ∀ (ps : List (Nat × String)) (s : Step),
      (∀ p ∈ ps, ¬(s.id = p.2 ∧ s.phase_id = phase_id)) →
      stepRenum phase_id ps s = s := by
  intro ps
  induction ps with
  | nil => intro s _; rfl
  | cons p rest ih =>
    intro s h
    have hp := h p (List.mem_cons_self p rest)
    have hcond : (s.id == p.2 && s.phase_id == phase_id) = false := by
      rw [Bool.and_eq_false_iff]
      by_cases h1 : s.id = p.2
      · right
        simp only [beq_eq_false_iff_ne, ne_eq]
        exact fun h2 => hp ⟨h1, h2⟩
      · left
        simp only [beq_eq_false_iff_ne, ne_eq]
        exact h1
    show stepRenum phase_id rest _ = s
    simp only [hcond, Bool.false_eq_true, if_false]
    exact ih s (fun q hq => h q (List.mem_cons_of_mem p hq))

theorem stepRenum_of_mem (phase_id : String) :
    ∀ (ps : List (Nat × String)) (k : Nat) (s : Step),
      (k, s.id) ∈ ps → (ps.map Prod.snd).Nodup → s.phase_id = phase_id →
      stepRenum phase_id ps s = { s with sequence_order := (k : Int) + 1 } := by
  intro ps
  induction ps with
  | nil => intro k s hmem; simp at hmem
  | cons p rest ih =>
    intro k s hmem hnd hph
    rw [List.map_cons] at hnd
    obtain ⟨hnotmem, hndrest⟩ := List.nodup_cons.mp hnd
    rcases List.mem_cons.mp hmem with heq | hmem2
    · have hcond : (s.id == p.2 && s.phase_id == phase_id) = true := by
        rw [← heq]
        simp [hph]
      show stepRenum phase_id rest _ = _
      simp only [hcond, if_true]
      have hsnd : p.2 = s.id := by rw [← heq]
      have hk : p.1 = k := by rw [← heq]
      rw [hk]
      apply stepRenum_of_notin
      intro q hq hcontra
      apply hnotmem
      rw [hsnd]
      have : q.2 = s.id := hcontra.1.symm
      exact this ▸ List.mem_map_of_mem Prod.snd hq
    · have hsne : p.2 ≠ s.id := by
        intro heq2
        exact hnotmem (heq2 ▸ List.mem_map_of_mem Prod.snd hmem2)
      have hcond : (s.id == p.2 && s.phase_id == phase_id) = false := by
        rw [Bool.and_eq_false_iff]
        left
        simp only [beq_eq_false_iff_ne, ne_eq]
        exact fun h2 => hsne h2.symm
      show stepRenum phase_id rest _ = _
      simp only [hcond, Bool.false_eq_true, if_false]
      exact ih k s hmem2 hndrest hph

theorem grandparentSweepStep_fields (d : DB) (a : String) :
    (grandparentSweepStep d a).projects = d.projects ∧
    (grandparentSweepStep d a).phases = d.phases ∧
    (grandparentSweepStep d a).steps = d.steps := by
  unfold grandparentSweepStep
  repeat' split
  all_goals first | exact ⟨rfl, rfl, rfl⟩ | exact sweep_fields _ _

theorem foldl_grandparent_fields :
    ∀ (ids : List String) (d : DB),
      (ids.foldl grandparentSweepStep d).projects = d.projects ∧
      (ids.foldl grandparentSweepStep d).phases = d.phases ∧
      (ids.foldl grandparentSweepStep d).steps = d.steps := by
  intro ids
  induction ids with
  | nil => intro d; exact ⟨rfl, rfl, rfl⟩
  | cons a rest ih =>
    intro d
    rw [List.foldl_cons]
    have h1 := grandparentSweepStep_fields d a
    have h2 := ih (grandparentSweepStep d a)
    exact ⟨h2.1.trans h1.1, h2.2.1.trans h1.2.1, h2.2.2.trans h1.2.2⟩

theorem deleteStepCore_steps (db : DB) (sid phase_id journey_id : String) :
    (deleteStepCore db sid phase_id journey_id).steps =
      (db.steps.filter (fun s => !(s.id == sid))).map
        (stepRenum phase_id
          ((sortedByKey Step.sequence_order
            ((db.steps.filter (fun s => !(s.id == sid))).filter
              (fun s => s.phase_id == phase_id))).map Step.id).enum) := by
  unfold deleteStepCore
  rw [(foldl_grandparent_fields _ _).2.2]
  have hsweep : ∀ d : DB, (if journey_id = "" then d
      else updateContinueStepIdsForJourney d journey_id).steps = d.steps := by
    intro d
    split
    · rfl
    · exact (sweep_fields d journey_id).2.2
  rw [hsweep, renumberSteps_eq]

theorem deleteStep_ok_inv {db : DB} {sid : String} {db2 : DB}
    (h : deleteStep db sid = (Except.ok (), db2)) :
    ∃ step phase, (db.steps.filter (fun s => s.id == sid)).head? = some step ∧
      (db.phases.filter (fun p => p.id == step.phase_id)).head? = some phase ∧
      (∃ j0, journeyById db phase.journey_id = some j0) ∧
      db2 = deleteStepCore db sid step.phase_id phase.journey_id := by
  unfold deleteStep at h
  cases h1 : (db.steps.filter (fun s => s.id == sid)).head? with
  | none => simp [h1] at h
  | some step =>
    simp only [h1] at h
    cases h2 : (db.phases.filter (fun p => p.id == step.phase_id)).head? with
    | none => simp [h2] at h
    | some phase =>
      simp only [h2] at h
      cases h3 : journeyById db phase.journey_id with
      | none => simp [h3] at h
      | some j0 =>
        simp only [h3, Prod.mk.injEq, Except.ok.injEq, true_and] at h
        exact ⟨step, phase, rfl, h2, ⟨j0, h3⟩, h.symm⟩

/-- Claim C10: after a successful `delete_step`, the remaining steps of
the deleted step's phase carry contiguous 1-based `sequence_order` values
that preserve their previous relative order (position `i` of the previous
order gets `i + 1`), and the deleted step is gone — on every successful
deletion, although the caller requested no reorder. -/
theorem delete_step_renumbers (db : DB) (sid : String) (db2 : DB) (step : Step)
    (hstep : (db.steps.filter (fun s => s.id == sid)).head? = some step)
    (hnds : (db.steps.map Step.id).Nodup)
    (h : deleteStep db sid = (Except.ok (), db2)) :
    (db2.steps.filter (fun s => s.phase_id == step.phase_id)).length =
      (sortedByKey Step.sequence_order
        ((db.steps.filter (fun s => !(s.id == sid))).filter
          (fun s => s.phase_id == step.phase_id))).length ∧
    (∀ s ∈ db2.steps, s.id ≠ sid) ∧
    (∀ i (hi : i < (sortedByKey Step.sequence_order
        ((db.steps.filter (fun s => !(s.id == sid))).filter
          (fun s => s.phase_id == step.phase_id))).length),
      ∃ s ∈ db2.steps, s.phase_id = step.phase_id ∧
        s.id = ((sortedByKey Step.sequence_order
          ((db.steps.filter (fun s => !(s.id == sid))).filter
            (fun s => s.phase_id == step.phase_id))).get ⟨i, hi⟩).id ∧
        s.sequence_order = (i : Int) + 1) := by
  obtain ⟨step0, phase0, hstep0, hphase0, ⟨j0, hj0⟩, hdb2⟩ := deleteStep_ok_inv h
  have hsteps : step0 = step := by
    rw [hstep0] at hstep
    exact Option.some.inj hstep
  rw [hsteps] at hphase0 hdb2
  set del := db.steps.filter (fun s => !(s.id == sid)) with hdel
  set rem := sortedByKey Step.sequence_order
    (del.filter (fun s => s.phase_id == step.phase_id)) with hrem
  set remIds := rem.map Step.id with hremIds
  have hcore : db2.steps = del.map (stepRenum step.phase_id remIds.enum) := by
    rw [hdb2, deleteStepCore_steps]
  have hpres : ∀ s, (stepRenum step.phase_id remIds.enum s).id = s.id ∧
      (stepRenum step.phase_id remIds.enum s).phase_id = s.phase_id :=
    fun s => stepRenum_id_phase step.phase_id remIds.enum s
  have hremperm : List.Perm rem (del.filter (fun s => s.phase_id == step.phase_id)) :=
    sortedByKey_perm _ _
  have hremnd : (rem.map Step.id).Nodup := by
    have hsub : (del.filter (fun s => s.phase_id == step.phase_id)).Sublist db.steps :=
      (List.filter_sublist del).trans (List.filter_sublist db.steps)
    have hnd2 : ((del.filter (fun s => s.phase_id == step.phase_id)).map Step.id).Nodup :=
      (hsub.map Step.id).nodup hnds
    exact ((hremperm.map Step.id).nodup_iff).mpr hnd2
  have hsnd : remIds.enum.map Prod.snd = remIds := List.enum_map_snd remIds
  refine ⟨?_, ?_, ?_⟩
  · rw [hcore]
    have hfilt : (del.map (stepRenum step.phase_id remIds.enum)).filter
        (fun s => s.phase_id == step.phase_id) =
        (del.filter (fun s => s.phase_id == step.phase_id)).map
          (stepRenum step.phase_id remIds.enum) := by
      rw [List.filter_map]
      congr 1
      refine List.filter_congr ?_
      intro s _
      simp [Function.comp, (hpres s).2]
    rw [hfilt, List.length_map]
    exact (hremperm.length_eq).symm
  · intro s hs
    rw [hcore] at hs
    obtain ⟨s1, hs1, rfl⟩ := List.mem_map.mp hs
    rw [(hpres s1).1]
    have := (List.mem_filter.mp hs1).2
    simpa using this
  · intro i hi
    set s0 := rem.get ⟨i, hi⟩ with hs0
    have hs0mem : s0 ∈ rem := List.get_mem rem i hi
    have hs0del : s0 ∈ del := (List.mem_filter.mp (hremperm.mem_iff.mp hs0mem)).1
    have hs0phase : s0.phase_id = step.phase_id := by
      have := (List.mem_filter.mp (hremperm.mem_iff.mp hs0mem)).2
      simpa using this
    have hie : i < remIds.enum.length := by
      rw [List.enum_length, hremIds, List.length_map]
      exact hi
    have hirem : i < remIds.length := by
      rw [hremIds, List.length_map]; exact hi
    have hpair : (i, s0.id) ∈ remIds.enum := by
      have hlm : i < (rem.map Step.id).length := by
        rw [List.length_map]; exact hi
      have hget := List.getElem_enum remIds i hie
      have hids : remIds[i] = s0.id := by
        show (rem.map Step.id)[i] = s0.id
        rw [List.getElem_map]
        rfl
      rw [hids] at hget
      exact hget ▸ List.getElem_mem hie
    have hnd3 : (remIds.enum.map Prod.snd).Nodup := by
      rw [hsnd]; exact hremnd
    have hval := stepRenum_of_mem step.phase_id remIds.enum i s0 hpair hnd3 hs0phase
    refine ⟨stepRenum step.phase_id remIds.enum s0, ?_, ?_, ?_, ?_⟩
    · rw [hcore]
      exact List.mem_map_of_mem _ hs0del
    · rw [(hpres s0).2]; exact hs0phase
    · rw [(hpres s0).1]
    · rw [hval]

/-- A phase with three steps, used by the C10 witness: deleting `B` must
renumber `A`, `C` to 1, 2. -/
def dbC10 : DB :=
  { projects := [⟨"pr", "t"⟩],
    journeys := [⟨"J", "pr", "t", "J", false, none, none, some 1⟩],
    phases := [⟨"P", "J", 1⟩],
    steps := [⟨"A", "P", "t", 1⟩, ⟨"B", "P", "t", 2⟩, ⟨"C", "P", "t", 3⟩] }

def dbC10del : DB :=
  { projects := [⟨"pr", "t"⟩],
    journeys := [⟨"J", "pr", "t", "J", false, none, none, some 1⟩],
    phases := [⟨"P", "J", 1⟩],
    steps := [⟨"A", "P", "t", 1⟩, ⟨"C", "P", "t", 2⟩] }

/-- Witness for C10: the renumbering postcondition at the concrete store. -/
theorem delete_step_renumbers_witness :
    (dbC10del.steps.filter (fun s => s.phase_id == "P")).length =
      (sortedByKey Step.sequence_order
        ((dbC10.steps.filter (fun s => !(s.id == "B"))).filter
          (fun s => s.phase_id == "P"))).length ∧
    (∀ s ∈ dbC10del.steps, s.id ≠ "B") ∧
    (∀ i (hi : i < (sortedByKey Step.sequence_order
        ((dbC10.steps.filter (fun s => !(s.id == "B"))).filter
          (fun s => s.phase_id == "P"))).length),
      ∃ s ∈ dbC10del.steps, s.phase_id = "P" ∧
        s.id = ((sortedByKey Step.sequence_order
          ((dbC10.steps.filter (fun s => !(s.id == "B"))).filter
            (fun s => s.phase_id == "P"))).get ⟨i, hi⟩).id ∧
        s.sequence_order = (i : Int) + 1) :=
  delete_step_renumbers dbC10 "B" dbC10del ⟨"B", "P", "t", 2⟩
    (by decide) (by decide) (by decide)

/-! ## Claim C6 — the continuation a structure read lets the client observe -/

theorem journeyById_self :
    ∀ (l : List Journey), (l.map Journey.id).Nodup → ∀ j ∈ l,
      (l.filter (fun x => x.id == j.id)).head? = some j := by
  intro l
  induction l with
  | nil => intro _ j hj; simp at hj
  | cons q rest ih =>
    intro hnd j hj
    rw [List.map_cons] at hnd
    obtain ⟨hqnotmem, hndrest⟩ := List.nodup_cons.mp hnd
    rcases List.mem_cons.mp hj with rfl | hmem
    · rw [List.filter_cons]
      simp
    · have hne : (q.id == j.id) = false := by
        simp only [beq_eq_false_iff_ne, ne_eq]
        intro heq
        exact hqnotmem (heq ▸ List.mem_map.mpr ⟨j, hmem, rfl⟩)
      rw [List.filter_cons, hne]
      simp only [Bool.false_eq_true, if_false]
      exact ih hndrest j hmem

theorem journeyById_writeContinue (db : DB) (jid : String) (v : Option String)
    (i : String) :
    journeyById (writeContinue db jid v) i =
      Option.map
        (fun j => if j.id == jid then { j with continue_step_id := v } else j)
        (journeyById db i) := by
  unfold journeyById writeContinue
  exact journeyById_map (fun j => by split <;> rfl) i

/-- The response-side fallback of `get_journey_structure`: keep `c1`
unless it is falsy and the freshly derived value is truthy. -/
def deriveObserved (computed c1 : Option String) : Option String :=
  if pyTruthy c1 then c1
  else match computed with
    | some dcid => if dcid = "" then c1 else some dcid
    | none => c1

theorem observed_norm_eq (computed c1 : Option String)
    (hc1 : pyStrNorm c1 = pyStrNorm computed) :
    pyStrNorm (deriveObserved computed c1) = pyStrNorm computed := by
  unfold deriveObserved
  by_cases ht : pyTruthy c1
  · rw [if_pos ht]; exact hc1
  · rw [if_neg ht]
    have hc1none : pyStrNorm c1 = none := by
      unfold pyTruthy at ht
      cases hh : pyStrNorm c1 with
      | none => rfl
      | some s => rw [hh] at ht; simp at ht
    cases computed with
    | none => exact hc1
    | some d =>
      have hd : d = "" := by
        have h2 : (none : Option String) = pyStrNorm (some d) := hc1none ▸ hc1
        simp only [pyStrNorm] at h2
        by_cases hde : d = ""
        · exact hde
        · rw [if_neg hde] at h2; simp at h2
      subst hd
      show pyStrNorm (if ("" : String) = "" then c1 else some "") =
        pyStrNorm (some "")
      rw [if_pos rfl]
      exact hc1

theorem structureRepairStep_fst (journey : Journey) (phases : List Phase)
    (all_steps : List Step) (acc : DB × List (String × Option String))
    (sj : Journey) :
    (structureRepairStep journey phases all_steps acc sj).1 =
      (validateAndFixContinueStepId acc.1 sj journey phases all_steps).1 := rfl

theorem structureRepairStep_snd (journey : Journey) (phases : List Phase)
    (all_steps : List Step) (acc : DB × List (String × Option String))
    (sj : Journey) (hrow : journeyById acc.1 sj.id = some sj) :
    ∃ c2, (structureRepairStep journey phases all_steps acc sj).2 =
        acc.2 ++ [(sj.id, c2)] ∧
      pyStrNorm c2 =
        pyStrNorm (computeContinueStepId sj journey phases all_steps) := by
  by_cases h : needsFix sj journey phases all_steps
  · have hvr : validateAndFixContinueStepId acc.1 sj journey phases all_steps =
        (writeContinue acc.1 sj.id
          (computeContinueStepId sj journey phases all_steps), true) := by
      rw [validateAndFix_eq, if_pos h]
    have hreload : journeyById (writeContinue acc.1 sj.id
        (computeContinueStepId sj journey phases all_steps)) sj.id =
        some { sj with continue_step_id :=
          computeContinueStepId sj journey phases all_steps } := by
      rw [journeyById_writeContinue, hrow]
      simp
    refine ⟨deriveObserved (computeContinueStepId sj journey phases all_steps)
        (computeContinueStepId sj journey phases all_steps), ?_, ?_⟩
    · show (structureRepairStep journey phases all_steps acc sj).2 = _
      unfold structureRepairStep
      rw [hvr]
      simp only [hreload, if_true]
      rfl
    · exact observed_norm_eq (computeContinueStepId sj journey phases all_steps)
        (computeContinueStepId sj journey phases all_steps) rfl
  · have hvr : validateAndFixContinueStepId acc.1 sj journey phases all_steps =
        (acc.1, false) := by
      rw [validateAndFix_eq, if_neg h]
    have hnorm : pyStrNorm sj.continue_step_id =
        pyStrNorm (computeContinueStepId sj journey phases all_steps) := by
      have := h
      unfold needsFix at this
      simp only [Bool.not_eq_true', Bool.not_eq_false, beq_iff_eq] at this
      exact this.symm
    refine ⟨deriveObserved (computeContinueStepId sj journey phases all_steps)
        sj.continue_step_id, ?_, ?_⟩
    · show (structureRepairStep journey phases all_steps acc sj).2 = _
      unfold structureRepairStep
      rw [hvr]
      simp only [Bool.false_eq_true, if_false]
      rfl
    · exact observed_norm_eq (computeContinueStepId sj journey phases all_steps)
        sj.continue_step_id hnorm

theorem structureFold_out (journey : Journey) (phases : List Phase)
    (all_steps : List Step) :
    ∀ (subs : List Journey) (acc : DB × List (String × Option String)),
      (subs.map Journey.id).Nodup →
      (∀ sj ∈ subs, journeyById acc.1 sj.id = some sj) →
      ∀ q ∈ (subs.foldl (structureRepairStep journey phases all_steps) acc).2,
        q ∈ acc.2 ∨ ∃ sj ∈ subs, q.1 = sj.id ∧
          pyStrNorm q.2 =
            pyStrNorm (computeContinueStepId sj journey phases all_steps) := by
  intro subs
  induction subs with
  | nil => intro acc _ _ q hq; exact Or.inl hq
  | cons sj rest ih =>
    intro acc hnd hrow q hq
    rw [List.map_cons] at hnd
    obtain ⟨hnotmem, hndrest⟩ := List.nodup_cons.mp hnd
    rw [List.foldl_cons] at hq
    obtain ⟨c2, hsnd, hc2⟩ := structureRepairStep_snd journey phases all_steps
      acc sj (hrow sj (List.mem_cons_self sj rest))
    have hrow2 : ∀ s ∈ rest,
        journeyById (structureRepairStep journey phases all_steps acc sj).1 s.id =
          some s := by
      intro s hs
      rw [structureRepairStep_fst, validateAndFix_eq]
      by_cases h : needsFix sj journey phases all_steps
      · rw [if_pos h]
        simp only
        rw [journeyById_writeContinue, hrow s (List.mem_cons_of_mem sj hs)]
        have hne : (s.id == sj.id) = false := by
          simp only [beq_eq_false_iff_ne, ne_eq]
          intro heq
          exact hnotmem (heq ▸ List.mem_map.mpr ⟨s, hs, rfl⟩)
        show some (if (s.id == sj.id) = true
          then { s with continue_step_id :=
            computeContinueStepId sj journey phases all_steps }
          else s) = some s
        rw [hne]
        simp
      · rw [if_neg h]
        exact hrow s (List.mem_cons_of_mem sj hs)
    have hres := ih (structureRepairStep journey phases all_steps acc sj)
      hndrest hrow2 q hq
    rcases hres with hacc | ⟨s, hsmem, hq1, hq2⟩
    · rw [hsnd] at hacc
      rcases List.mem_append.mp hacc with hacc | hnew
      · exact Or.inl hacc
      · right
        rw [List.mem_singleton] at hnew
        refine ⟨sj, List.mem_cons_self sj rest, ?_, ?_⟩
        · rw [hnew]
        · rw [hnew]
          exact hc2
    · exact Or.inr ⟨s, List.mem_cons_of_mem sj hsmem, hq1, hq2⟩

/-- Claim C6 theorem (amended): every subjourney in a successful
`get_journey_structure` response has been validated (and repaired when
stale) before the response is assembled, so the `continue_step_id` the
client observes equals — up to the null/empty-string normalization the
validator itself uses — the value computed from the journey's current
phase and step ordering. -/
theorem structure_read_observed_continue (db : DB) (jid : String)
    (hnd : (db.journeys.map Journey.id).Nodup) :
    ∀ res db2, getJourneyStructureRepair db jid true = (Except.ok res, db2) →
      ∀ q ∈ res, ∃ sj pj, journeyById db jid = some pj ∧
        sj ∈ db.journeys ∧ sj.is_subjourney = true ∧ q.1 = sj.id ∧
        pyStrNorm q.2 =
          pyStrNorm (computeContinueStepId sj pj
            (journeyPhases db jid) (journeySteps db jid)) := by
  intro res db2 h q hq
  unfold getJourneyStructureRepair at h
  cases hj : journeyById db jid with
  | none => rw [hj] at h; simp at h
  | some journey =>
    simp only [hj, Prod.mk.injEq, Except.ok.injEq] at h
    obtain ⟨hres, _⟩ := h
    set subs := (if true && !((journeySteps db jid).map Step.id).isEmpty
      then anchoredSubjourneys db.journeys ((journeySteps db jid).map Step.id)
      else []) with hsubs
    have hsubsmem : ∀ sj ∈ subs, sj ∈ db.journeys ∧ sj.is_subjourney = true := by
      intro sj hsj
      rw [hsubs] at hsj
      split at hsj
      · have := mem_anchoredSubjourneys.mp hsj
        exact ⟨this.1, this.2.1⟩
      · simp at hsj
    have hsubsnd : (subs.map Journey.id).Nodup := by
      rw [hsubs]
      split
      · exact anchoredSubjourneys_ids_nodup hnd
      · simp
    have hrow : ∀ sj ∈ subs, journeyById (db, ([] :
        List (String × Option String))).1 sj.id = some sj := by
      intro sj hsj
      exact journeyById_self db.journeys hnd sj (hsubsmem sj hsj).1
    have hout := structureFold_out journey (journeyPhases db jid)
      (journeySteps db jid) subs (db, []) hsubsnd hrow q (by rw [hres]; exact hq)
    rcases hout with hnil | ⟨sj, hsj, hq1, hq2⟩
    · simp at hnil
    · exact ⟨sj, journey, rfl, (hsubsmem sj hsj).1, (hsubsmem sj hsj).2, hq1, hq2⟩

/-- A store whose subjourney `SJ` carries the empty string as its stored
continuation while the computed continuation is null (`A` is the last step
of a top-level journey). -/
def dbC6 : DB :=
  { projects := [⟨"pr", "t"⟩],
    journeys :=
      [ ⟨"J", "pr", "t", "J", false, none, none, some 1⟩,
        ⟨"SJ", "pr", "t", "SJ", true, some "A", some "", none⟩ ],
    phases := [⟨"P", "J", 1⟩],
    steps := [⟨"A", "P", "t", 1⟩] }

def sjC6 : Journey := ⟨"SJ", "pr", "t", "SJ", true, some "A", some "", none⟩

def jC6 : Journey := ⟨"J", "pr", "t", "J", false, none, none, some 1⟩

/-- Counterexample to C6 as stated: the client observes
`continue_step_id = ""` for `SJ`, while the value computed from the
current ordering is `null`; the two are equal only after the validator's
falsy-string normalization, not literally. -/
theorem structure_read_observed_counterexample :
    (getJourneyStructureRepair dbC6 "J" true).1 = Except.ok [("SJ", some "")] ∧
    computeContinueStepId sjC6 jC6 (journeyPhases dbC6 "J") (journeySteps dbC6 "J") =
      none ∧
    (some "" : Option String) ≠ none := by
  refine ⟨by decide, by decide, by decide⟩

/-- Witness for C6 (amended): the theorem applied to the concrete store. -/
theorem structure_read_observed_witness :
    ∃ sj pj, journeyById dbC6 "J" = some pj ∧
      sj ∈ dbC6.journeys ∧ sj.is_subjourney = true ∧ ("SJ" : String) = sj.id ∧
      pyStrNorm (some "") =
        pyStrNorm (computeContinueStepId sj pj
          (journeyPhases dbC6 "J") (journeySteps dbC6 "J")) :=
  structure_read_observed_continue dbC6 "J" (by decide) [("SJ", some "")] dbC6
    (by decide) ("SJ", some "") (by decide)

/-! ## Claim C7 — project-wide validation does not recurse

`validate_and_fix_continue_step_ids` fetches only the project's top-level
journeys (`.eq("is_subjourney", False)`) and never descends into a
subjourney's own steps, although its docstring promises to fix "all
subjourneys in a project". -/

/-- A project with a top-level journey `J` (step `A`), a subjourney `SJ1`
anchored at `A` (own step `B`), and a nested sub-subjourney `SJ2` anchored
at `B` whose stored continuation `A` is stale (the computed value is the
loop-back `B`). -/
def dbC7 : DB :=
  { projects := [⟨"pr", "t"⟩],
    journeys :=
      [ ⟨"J", "pr", "t", "J", false, none, none, some 1⟩,
        ⟨"SJ1", "pr", "t", "SJ1", true, some "A", none, none⟩,
        ⟨"SJ2", "pr", "t", "SJ2", true, some "B", some "A", none⟩ ],
    phases := [⟨"P", "J", 1⟩, ⟨"PS", "SJ1", 1⟩],
    steps := [⟨"A", "P", "t", 1⟩, ⟨"B", "PS", "t", 1⟩] }

def sjC7nested : Journey := ⟨"SJ2", "pr", "t", "SJ2", true, some "B", some "A", none⟩

def sjC7mid : Journey := ⟨"SJ1", "pr", "t", "SJ1", true, some "A", none, none⟩

/-- C7: evaluation at the failing input.  The endpoint reports
`total_subjourneys = 1` — only `SJ1`, anchored in the top-level journey —
and leaves the nested `SJ2` untouched with its stale continuation
`some "A"`, although the value computed from `SJ1`'s current ordering is
the (normalized-different) loop-back `some "B"`.  Recursion into
subjourneys, as the claim and the endpoint's docstring promise, would have
validated and counted `SJ2` as well. -/
theorem project_validation_skips_nested_subjourneys :
    (validateAndFixContinueStepIdsForProject dbC7 "pr").1 = Except.ok (0, 1) ∧
    sjC7nested ∈ ((validateAndFixContinueStepIdsForProject dbC7 "pr").2).journeys ∧
    computeContinueStepId sjC7nested sjC7mid
      (journeyPhases dbC7 "SJ1") (journeySteps dbC7 "SJ1") = some "B" ∧
    pyStrNorm (some "B") ≠ pyStrNorm sjC7nested.continue_step_id := by
  refine ⟨by decide, by decide, by decide, by decide⟩

/-! ## Machinery for the mutation-handler claims (C2, C4)

The sweep post-condition: every subjourney anchored in the journey's
current step set stores the (normalized) computed continuation. -/

theorem head_filter_key {α : Type _} (key : α → String) :
    ∀ (l : List α), (l.map key).Nodup → ∀ x ∈ l,
      (l.filter (fun y => key y == key x)).head? = some x := by
  intro l
  induction l with
  | nil => intro _ x hx; simp at hx
  | cons q rest ih =>
    intro hnd x hx
    rw [List.map_cons] at hnd
    obtain ⟨hqnotmem, hndrest⟩ := List.nodup_cons.mp hnd
    rcases List.mem_cons.mp hx with rfl | hmem
    · rw [List.filter_cons]
      simp
    · have hne : (key q == key x) = false := by
        simp only [beq_eq_false_iff_ne, ne_eq]
        intro heq
        exact hqnotmem (heq ▸ List.mem_map.mpr ⟨x, hmem, rfl⟩)
      rw [List.filter_cons, hne]
      simp only [Bool.false_eq_true, if_false]
      exact ih hndrest x hmem

theorem mem_journeyPhases {db : DB} {jid : String} {p : Phase}
    (h : p ∈ journeyPhases db jid) : p ∈ db.phases ∧ p.journey_id = jid := by
  unfold journeyPhases at h
  have := List.mem_filter.mp (mem_sortedByKey.mp h)
  exact ⟨this.1, by simpa using this.2⟩

theorem journeySteps_def (db : DB) (jid : String) :
    journeySteps db jid =
      if ((journeyPhases db jid).map Phase.id).isEmpty then []
      else sortedByKey Step.sequence_order
        (db.steps.filter (fun s =>
          ((journeyPhases db jid).map Phase.id).contains s.phase_id)) := rfl

theorem mem_journeySteps {db : DB} {jid : String} {s : Step}
    (h : s ∈ journeySteps db jid) :
    s ∈ db.steps ∧ ∃ p ∈ db.phases, p.journey_id = jid ∧ p.id = s.phase_id := by
  rw [journeySteps_def] at h
  split at h
  · simp at h
  · have hm := List.mem_filter.mp (mem_sortedByKey.mp h)
    refine ⟨hm.1, ?_⟩
    have hc := hm.2
    have := List.elem_iff.mp hc
    obtain ⟨p, hp, hpid⟩ := List.mem_map.mp this
    obtain ⟨hpmem, hpj⟩ := mem_journeyPhases hp
    exact ⟨p, hpmem, hpj, hpid⟩

theorem mem_journeySteps_intro {db : DB} {jid : String} {s : Step} {p : Phase}
    (hs : s ∈ db.steps) (hp : p ∈ db.phases) (hpj : p.journey_id = jid)
    (hpid : p.id = s.phase_id) : s ∈ journeySteps db jid := by
  have hpmem : p ∈ journeyPhases db jid := by
    unfold journeyPhases
    rw [mem_sortedByKey, List.mem_filter]
    exact ⟨hp, by simp [hpj]⟩
  have hcontains : ((journeyPhases db jid).map Phase.id).contains s.phase_id = true := by
    apply List.elem_iff.mpr
    exact hpid ▸ List.mem_map_of_mem Phase.id hpmem
  rw [journeySteps_def]
  have hnonempty : ((journeyPhases db jid).map Phase.id).isEmpty = false := by
    apply List.isEmpty_eq_false.mpr
    exact List.ne_nil_of_mem (hpid ▸ List.mem_map_of_mem Phase.id hpmem)
  rw [hnonempty]
  simp only [Bool.false_eq_true, if_false]
  rw [mem_sortedByKey, List.mem_filter]
  exact ⟨hs, hcontains⟩

theorem stepIds_disjoint {db : DB}
    (hndp : (db.phases.map Phase.id).Nodup)
    (hnds : (db.steps.map Step.id).Nodup)
    {jid jid' : String} (hne : jid ≠ jid') {a : String}
    (h1 : a ∈ (journeySteps db jid).map Step.id)
    (h2 : a ∈ (journeySteps db jid').map Step.id) : False := by
  obtain ⟨s1, hs1, hid1⟩ := List.mem_map.mp h1
  obtain ⟨s2, hs2, hid2⟩ := List.mem_map.mp h2
  obtain ⟨hs1m, p1, hp1, hpj1, hpid1⟩ := mem_journeySteps hs1
  obtain ⟨hs2m, p2, hp2, hpj2, hpid2⟩ := mem_journeySteps hs2
  have hseq : s1 = s2 :=
    List.inj_on_of_nodup_map hnds hs1m hs2m (hid1.trans hid2.symm)
  have hpeq : p1 = p2 :=
    List.inj_on_of_nodup_map hndp hp1 hp2 (by rw [hpid1, hpid2, hseq])
  exact hne (hpj1 ▸ hpeq ▸ hpj2)

theorem compute_result_sources (sj pj : Journey) (phases : List Phase)
    (steps : List Step) (v : String)
    (h : computeContinueStepId sj pj phases steps = some v) :
    (∃ st ∈ steps, st.id = v) ∨ sj.parent_step_id = some v := by
  unfold computeContinueStepId at h
  cases hpar : sj.parent_step_id with
  | none => rw [hpar] at h; simp at h
  | some psid =>
    rw [hpar] at h
    simp only at h
    by_cases hpe : psid = ""
    · rw [if_pos hpe] at h; simp at h
    · rw [if_neg hpe] at h
      cases hfind : (orderedSteps phases steps).findIdx? (fun s => s.id == psid) with
      | none => rw [hfind] at h; simp at h
      | some idx =>
        rw [hfind] at h
        simp only at h
        by_cases hlt : idx < (orderedSteps phases steps).length - 1
        · rw [if_pos hlt] at h
          cases hget : (orderedSteps phases steps).get? (idx + 1) with
          | none => rw [hget] at h; simp at h
          | some next =>
            rw [hget] at h
            simp only at h
            by_cases hnext : next.id = ""
            · rw [if_pos hnext] at h; simp at h
            · rw [if_neg hnext] at h
              left
              have hmem : next ∈ orderedSteps phases steps :=
                List.get?_mem hget
              exact ⟨next, mem_orderedSteps_sub hmem, Option.some.inj h⟩
        · rw [if_neg hlt] at h
          by_cases hsub : pj.is_subjourney
          · rw [if_pos hsub] at h
            right
            exact h
          · rw [if_neg hsub] at h; simp at h

/-- The repair sweep's post-condition for journey `jid`: every subjourney
row anchored in the journey's current step set stores the normalized
computed continuation. -/
def sweepPost (db : DB) (jid : String) : Prop :=
  ∀ j ∈ db.journeys, j.is_subjourney = true →
    ∀ a, j.parent_step_id = some a →
      a ∈ (journeySteps db jid).map Step.id →
      ∀ pj, journeyById db jid = some pj →
        pyStrNorm j.continue_step_id =
          pyStrNorm (computeContinueStepId j pj
            (journeyPhases db jid) (journeySteps db jid))

/-- Well-formedness of the store: primary keys are unique. -/
def dbWF (db : DB) : Prop :=
  (db.journeys.map Journey.id).Nodup ∧
  (db.phases.map Phase.id).Nodup ∧
  (db.steps.map Step.id).Nodup

theorem sweep_journeys_ids (db : DB) (jid : String) :
    (updateContinueStepIdsForJourney db jid).journeys.map Journey.id =
      db.journeys.map Journey.id := by
  cases h : journeyById db jid with
  | none => rw [sweep_eq_of_missing h]
  | some journey =>
    rw [sweep_eq_of_found h]
    simp only [List.map_map]
    exact List.map_congr_left (fun j _ => (applyFixes_skeleton _ _ _ _ j).1)

theorem sweep_preserves_wf (db : DB) (jid : String) (h : dbWF db) :
    dbWF (updateContinueStepIdsForJourney db jid) := by
  obtain ⟨h1, h2, h3⟩ := h
  refine ⟨?_, ?_, ?_⟩
  · rw [sweep_journeys_ids]; exact h1
  · rw [(sweep_fields db jid).2.1]; exact h2
  · rw [(sweep_fields db jid).2.2]; exact h3

/-- `_update_continue_step_ids_for_journey` establishes its
post-condition. -/
theorem sweep_correct (db : DB) (jid : String)
    (hnd : (db.journeys.map Journey.id).Nodup) :
    sweepPost (updateContinueStepIdsForJourney db jid) jid := by
  cases h : journeyById db jid with
  | none =>
    rw [sweep_eq_of_missing h]
    intro j _ _ a _ _ pj hpj
    rw [h] at hpj
    exact absurd hpj (by simp)
  | some journey =>
    have hdb1 := sweep_eq_of_found h
    set phases := journeyPhases db jid with hphases
    set steps := journeySteps db jid with hsteps
    set subs := anchoredSubjourneys db.journeys (steps.map Step.id) with hsubs
    set F := applyFixes journey phases steps subs with hF
    set db1 := updateContinueStepIdsForJourney db jid with hdb1d
    have hFid : ∀ j, (F j).id = j.id := fun j => (applyFixes_skeleton _ _ _ _ j).1
    have hFsub : ∀ j, (F j).is_subjourney = j.is_subjourney :=
      fun j => (applyFixes_skeleton _ _ _ _ j).2.1
    have hFpar : ∀ j, (F j).parent_step_id = j.parent_step_id :=
      fun j => (applyFixes_skeleton _ _ _ _ j).2.2.1
    have hjourneys1 : db1.journeys = db.journeys.map F := by rw [hdb1]
    have hphases1 : db1.phases = db.phases := by rw [hdb1]
    have hsteps1 : db1.steps = db.steps := by rw [hdb1]
    have hph1 : journeyPhases db1 jid = phases := by
      rw [hphases, journeyPhases_congr hphases1]
    have hst1 : journeySteps db1 jid = steps := by
      rw [hsteps, journeySteps_congr hphases1 hsteps1]
    have hfound1 : journeyById db1 jid = some (F journey) := by
      unfold journeyById
      rw [hjourneys1, journeyById_map hFid]
      have hh : journeyById db jid = some journey := h
      unfold journeyById at hh
      rw [hh]
      rfl
    intro j1 hj1 hsub1 a hpar1 hain pj1 hpj1
    rw [hjourneys1] at hj1
    obtain ⟨j, hj, rfl⟩ := List.mem_map.mp hj1
    have hpj1v : pj1 = F journey := by
      rw [hfound1] at hpj1
      exact (Option.some.inj hpj1).symm
    rw [hst1] at hain
    have hjsubs : j ∈ subs := by
      rw [hsubs]
      apply mem_anchoredSubjourneys.mpr
      exact ⟨hj, (hFsub j) ▸ hsub1, a, (hFpar j) ▸ hpar1, hain⟩
    have hndsubs : (subs.map Journey.id).Nodup := anchoredSubjourneys_ids_nodup hnd
    have hFval := applyFixes_of_mem journey phases steps subs j hjsubs hndsubs
    have hcongr : computeContinueStepId (F j) pj1 (journeyPhases db1 jid)
        (journeySteps db1 jid) = computeContinueStepId j journey phases steps := by
      rw [hph1, hst1, hpj1v]
      exact computeContinueStepId_congr phases steps (hFpar j) (hFsub journey)
    rw [hcongr]
    rw [← hF] at hFval
    by_cases hfix : needsFix j journey phases steps
    · rw [hFval, if_pos hfix]
    · rw [hFval, if_neg hfix]
      have := hfix
      unfold needsFix at this
      simp only [Bool.not_eq_true', Bool.not_eq_false, beq_iff_eq] at this
      exact this.symm

/-- Sweeping any journey preserves the post-condition already established
for another (or the same) journey. -/
theorem sweep_preserves_post (db : DB) (jid jid' : String) (hwf : dbWF db)
    (hpost : sweepPost db jid) :
    sweepPost (updateContinueStepIdsForJourney db jid') jid := by
  by_cases heq : jid' = jid
  · subst heq; exact sweep_correct db jid' hwf.1
  · cases h' : journeyById db jid' with
    | none => rw [sweep_eq_of_missing h']; exact hpost
    | some journey' =>
      have hdb1 := sweep_eq_of_found h'
      set F := applyFixes journey' (journeyPhases db jid') (journeySteps db jid')
        (anchoredSubjourneys db.journeys
          ((journeySteps db jid').map Step.id)) with hF
      set db1 := updateContinueStepIdsForJourney db jid' with hdb1d
      have hFid : ∀ j, (F j).id = j.id := fun j => (applyFixes_skeleton _ _ _ _ j).1
      have hFsub : ∀ j, (F j).is_subjourney = j.is_subjourney :=
        fun j => (applyFixes_skeleton _ _ _ _ j).2.1
      have hFpar : ∀ j, (F j).parent_step_id = j.parent_step_id :=
        fun j => (applyFixes_skeleton _ _ _ _ j).2.2.1
      have hjourneys1 : db1.journeys = db.journeys.map F := by rw [hdb1]
      have hphases1 : db1.phases = db.phases := by rw [hdb1]
      have hsteps1 : db1.steps = db.steps := by rw [hdb1]
      have hph1 : journeyPhases db1 jid = journeyPhases db jid :=
        journeyPhases_congr hphases1 jid
      have hst1 : journeySteps db1 jid = journeySteps db jid :=
        journeySteps_congr hphases1 hsteps1 jid
      intro j1 hj1 hsub1 a hpar1 hain pj1 hpj1
      rw [hjourneys1] at hj1
      obtain ⟨j, hj, rfl⟩ := List.mem_map.mp hj1
      rw [hst1] at hain
      have hpj0 : ∃ pj0, journeyById db jid = some pj0 ∧ pj1 = F pj0 := by
        have : journeyById db1 jid = Option.map F (journeyById db jid) := by
          unfold journeyById
          rw [hjourneys1]
          exact journeyById_map hFid jid
        rw [this] at hpj1
        cases hj0 : journeyById db jid with
        | none => rw [hj0] at hpj1; exact absurd hpj1 (by simp)
        | some pj0 =>
          rw [hj0] at hpj1
          exact ⟨pj0, rfl, (Option.some.inj hpj1).symm⟩
      obtain ⟨pj0, hpj0eq, hpj1v⟩ := hpj0
      have hFj : F j = j := by
        rw [hF]
        apply applyFixes_of_notin
        intro sj' hsj' hsjid
        obtain ⟨hsj'mem, _, a2, hpar2, hain2⟩ := mem_anchoredSubjourneys.mp hsj'
        have hsj'j : sj' = j := eq_of_mem_of_id hwf.1 hsj'mem hj hsjid
        have hpar3 : j.parent_step_id = some a := (hFpar j) ▸ hpar1
        have ha2 : a2 = a := by
          rw [hsj'j] at hpar2
          rw [hpar2] at hpar3
          exact Option.some.inj hpar3
        rw [ha2] at hain2
        exact stepIds_disjoint hwf.2.1 hwf.2.2 (fun hh => heq hh.symm) hain hain2
      have hcongr : computeContinueStepId (F j) pj1 (journeyPhases db1 jid)
          (journeySteps db1 jid) =
          computeContinueStepId j pj0 (journeyPhases db jid)
            (journeySteps db jid) := by
        rw [hph1, hst1, hpj1v]
        exact computeContinueStepId_congr _ _ (hFpar j) (hFsub pj0)
      rw [hcongr, hFj]
      exact hpost j hj ((hFsub j) ▸ (hFj ▸ hsub1)) a ((hFpar j) ▸ hpar1)
        hain pj0 hpj0eq

theorem grandparentSweepStep_wf (d : DB) (a : String) (h : dbWF d) :
    dbWF (grandparentSweepStep d a) := by
  unfold grandparentSweepStep
  repeat' split
  all_goals first | exact h | exact sweep_preserves_wf _ _ h

theorem grandparentSweepStep_post (d : DB) (a : String) (jid : String)
    (hwf : dbWF d) (hpost : sweepPost d jid) :
    sweepPost (grandparentSweepStep d a) jid := by
  unfold grandparentSweepStep
  repeat' split
  all_goals first | exact hpost | exact sweep_preserves_post _ _ _ hwf hpost

theorem foldl_grandparent_post (jid : String) :
    ∀ (ids : List String) (d : DB), dbWF d → sweepPost d jid →
      sweepPost (ids.foldl grandparentSweepStep d) jid := by
  intro ids
  induction ids with
  | nil => intro d _ hpost; exact hpost
  | cons a rest ih =>
    intro d hwf hpost
    rw [List.foldl_cons]
    exact ih _ (grandparentSweepStep_wf d a hwf)
      (grandparentSweepStep_post d a jid hwf hpost)

theorem renumberSteps_wf (phase_id : String) (ids : List String) (db : DB)
    (h : dbWF db) : dbWF (renumberSteps phase_id ids db) := by
  rw [renumberSteps_eq]
  refine ⟨h.1, h.2.1, ?_⟩
  show ((db.steps.map (stepRenum phase_id ids.enum)).map Step.id).Nodup
  rw [List.map_map]
  have : db.steps.map (Step.id ∘ stepRenum phase_id ids.enum) =
      db.steps.map Step.id :=
    List.map_congr_left (fun s _ => (stepRenum_id_phase phase_id ids.enum s).1)
  rw [this]
  exact h.2.2

theorem renumberSteps_journeys (phase_id : String) (ids : List String) (db : DB) :
    (renumberSteps phase_id ids db).journeys = db.journeys := by
  rw [renumberSteps_eq]

theorem renumberPhases_journeys (jid : String) (ids : List String) (db : DB) :
    (renumberPhases jid ids db).journeys = db.journeys := by
  unfold renumberPhases
  generalize ids.enum = ps
  induction ps generalizing db with
  | nil => rfl
  | cons q rest ih =>
    rw [List.foldl_cons]
    exact ih _

theorem reorderSteps_ok_journeys {db : DB} {pid : String} {ids : List String}
    {db2 : DB} (h : reorderSteps db pid ids = (Except.ok (), db2)) :
    db2.journeys = db.journeys := by
  unfold reorderSteps at h
  cases h1 : (db.phases.filter (fun p => p.id == pid)).head? with
  | none => simp [h1] at h
  | some phase =>
    simp only [h1] at h
    cases h2 : journeyById db phase.journey_id with
    | none => simp [h2] at h
    | some j0 =>
      simp only [h2] at h
      by_cases he : ids.isEmpty
      · rw [if_pos he] at h
        simp only [Prod.mk.injEq, true_and] at h
        rw [← h]
      · rw [if_neg he] at h
        split at h
        · simp at h
        · simp only [Prod.mk.injEq, true_and] at h
          rw [← h, renumberSteps_journeys]

theorem reorderPhases_ok_journeys {db : DB} {jid : String} {ids : List String}
    {db2 : DB} (h : reorderPhases db jid ids = (Except.ok (), db2)) :
    db2.journeys = db.journeys := by
  unfold reorderPhases at h
  cases h1 : journeyById db jid with
  | none => simp [h1] at h
  | some j0 =>
    simp only [h1] at h
    by_cases he : ids.isEmpty
    · rw [if_pos he] at h
      simp only [Prod.mk.injEq, true_and] at h
      rw [← h]
    · rw [if_neg he] at h
      split at h
      · simp at h
      · simp only [Prod.mk.injEq, true_and] at h
        rw [← h, renumberPhases_journeys]

theorem deleteStep_post {db : DB} {sid : String} {db2 : DB}
    (hwf : dbWF db) {step : Step} {phase : Phase}
    (hstep : (db.steps.filter (fun s => s.id == sid)).head? = some step)
    (hphase : (db.phases.filter (fun p => p.id == step.phase_id)).head? = some phase)
    (hjne : phase.journey_id ≠ "")
    (h : deleteStep db sid = (Except.ok (), db2)) :
    sweepPost db2 phase.journey_id := by
  obtain ⟨step0, phase0, hs0, hp0, _, hdb2⟩ := deleteStep_ok_inv h
  have hse : step0 = step := by
    rw [hs0] at hstep
    exact Option.some.inj hstep
  rw [hse] at hp0 hdb2
  have hpe : phase0 = phase := by
    rw [hp0] at hphase
    exact Option.some.inj hphase
  rw [hpe] at hdb2
  set db1 : DB := { db with
    steps := db.steps.filter (fun s => !(s.id == sid)) } with hdb1
  set remIds := (sortedByKey Step.sequence_order
    (db1.steps.filter (fun s => s.phase_id == step.phase_id))).map Step.id with hrem
  set dbR := renumberSteps step.phase_id remIds db1 with hdbR
  set db3 := (if phase.journey_id = "" then dbR
    else updateContinueStepIdsForJourney dbR phase.journey_id) with hdb3
  set affected := (db.journeys.filter
    (fun j => j.is_subjourney && j.continue_step_id == some sid)).map Journey.id
    with haff
  have hcore : db2 = affected.foldl grandparentSweepStep db3 := by
    rw [hdb2]
    rfl
  have hwf1 : dbWF db1 := by
    refine ⟨hwf.1, hwf.2.1, ?_⟩
    show ((db.steps.filter (fun s => !(s.id == sid))).map Step.id).Nodup
    exact ((List.filter_sublist db.steps).map Step.id).nodup hwf.2.2
  have hwfR : dbWF dbR := renumberSteps_wf _ _ _ hwf1
  have hdb3v : db3 = updateContinueStepIdsForJourney dbR phase.journey_id := by
    rw [hdb3, if_neg hjne]
  have hpost3 : sweepPost db3 phase.journey_id := by
    rw [hdb3v]
    exact sweep_correct _ _ hwfR.1
  have hwf3 : dbWF db3 := by
    rw [hdb3v]
    exact sweep_preserves_wf _ _ hwfR
  rw [hcore]
  exact foldl_grandparent_post _ affected db3 hwf3 hpost3

/-- The max-plus-one sequence number `move_step_to_phase` assigns in the
target phase (`steps.py` lines 389-399). -/
def moveNextOrder (db : DB) (tpid : String) : Int :=
  match db.steps.filter (fun s => s.phase_id == tpid) with
  | [] => 1
  | t :: rest => rest.foldl (fun m s => max m s.sequence_order) t.sequence_order + 1

/-- Stage 1 of `moveStepCore`: the step row is rewritten to the target
phase with the fresh sequence number. -/
def moveDb1 (db : DB) (sid tpid : String) : DB :=
  { db with steps := db.steps.map (fun s =>
      if s.id == sid
      then { s with phase_id := tpid, sequence_order := moveNextOrder db tpid }
      else s) }

/-- Stage 2: the source phase, when distinct, is renumbered. -/
def moveDb2 (db : DB) (sid tpid spid : String) : DB :=
  if spid ≠ "" ∧ spid ≠ tpid then
    renumberSteps spid ((sortedByKey Step.sequence_order
      ((moveDb1 db sid tpid).steps.filter (fun s => s.phase_id == spid))).map
        Step.id) (moveDb1 db sid tpid)
  else moveDb1 db sid tpid

/-- Stage 3: the target phase's journey is swept. -/
def moveDb3 (db : DB) (sid tpid spid : String) : DB :=
  match ((moveDb2 db sid tpid spid).phases.filter
      (fun p => p.id == tpid)).head? with
  | some p2 =>
    if p2.journey_id = "" then moveDb2 db sid tpid spid
    else updateContinueStepIdsForJourney (moveDb2 db sid tpid spid) p2.journey_id
  | none => moveDb2 db sid tpid spid

/-- Stage 4, abstracted over the stores it receives: the source phase's
journey is swept as well when it exists and differs from the target
journey. -/
def moveFinal (db3 db2 : DB) (tpid spid : String) : DB :=
  if spid ≠ "" ∧ spid ≠ tpid then
    match (db3.phases.filter (fun p => p.id == spid)).head? with
    | none => db3
    | some sp =>
      if sp.journey_id = "" then db3
      else
        match (db2.phases.filter (fun p => p.id == tpid)).head? with
        | none => db3
        | some p2 =>
          if sp.journey_id == p2.journey_id then db3
          else updateContinueStepIdsForJourney db3 sp.journey_id
  else db3

theorem moveStepCore_decomp (db : DB) (sid tpid spid : String) :
    moveStepCore db sid tpid spid =
      moveFinal (moveDb3 db sid tpid spid) (moveDb2 db sid tpid spid)
        tpid spid := rfl

theorem moveDb1_fields (db : DB) (sid tpid : String) :
    (moveDb1 db sid tpid).projects = db.projects ∧
    (moveDb1 db sid tpid).phases = db.phases ∧
    (moveDb1 db sid tpid).journeys = db.journeys ∧
    (moveDb1 db sid tpid).steps.map Step.id = db.steps.map Step.id := by
  refine ⟨rfl, rfl, rfl, ?_⟩
  show (db.steps.map _).map Step.id = _
  rw [List.map_map]
  refine List.map_congr_left (fun s _ => ?_)
  by_cases h : s.id = sid <;> simp [h]

theorem moveDb2_fields (db : DB) (sid tpid spid : String) :
    (moveDb2 db sid tpid spid).projects = db.projects ∧
    (moveDb2 db sid tpid spid).phases = db.phases ∧
    (moveDb2 db sid tpid spid).journeys = db.journeys ∧
    (moveDb2 db sid tpid spid).steps.map Step.id = db.steps.map Step.id := by
  unfold moveDb2
  split
  · rw [renumberSteps_eq]
    have h1 := moveDb1_fields db sid tpid
    refine ⟨h1.1, h1.2.1, h1.2.2.1, ?_⟩
    show ((moveDb1 db sid tpid).steps.map _).map Step.id = _
    rw [List.map_map]
    have : (moveDb1 db sid tpid).steps.map (Step.id ∘ stepRenum spid
        ((sortedByKey Step.sequence_order
          ((moveDb1 db sid tpid).steps.filter
            (fun s => s.phase_id == spid))).map Step.id).enum) =
        (moveDb1 db sid tpid).steps.map Step.id :=
      List.map_congr_left (fun s _ => (stepRenum_id_phase _ _ s).1)
    rw [this]
    exact h1.2.2.2
  · exact moveDb1_fields db sid tpid

theorem moveDb2_wf (db : DB) (sid tpid spid : String) (hwf : dbWF db) :
    dbWF (moveDb2 db sid tpid spid) := by
  have h := moveDb2_fields db sid tpid spid
  refine ⟨?_, ?_, ?_⟩
  · rw [h.2.2.1]; exact hwf.1
  · rw [h.2.1]; exact hwf.2.1
  · rw [h.2.2.2]; exact hwf.2.2

theorem moveDb3_eq (db : DB) (sid tpid spid : String) {tphase : Phase}
    (htp : ((moveDb2 db sid tpid spid).phases.filter
      (fun p => p.id == tpid)).head? = some tphase)
    (htne : tphase.journey_id ≠ "") :
    moveDb3 db sid tpid spid =
      updateContinueStepIdsForJourney (moveDb2 db sid tpid spid)
        tphase.journey_id := by
  unfold moveDb3
  simp only [htp]
  rw [if_neg htne]

theorem moveFinal_post (db3 db2 : DB) (tpid spid jid : String)
    (hwf3 : dbWF db3) (hpost : sweepPost db3 jid) :
    sweepPost (moveFinal db3 db2 tpid spid) jid := by
  unfold moveFinal
  split
  · split
    · exact hpost
    · split
      · exact hpost
      · split
        · exact hpost
        · split
          · exact hpost
          · exact sweep_preserves_post _ _ _ hwf3 hpost
  · exact hpost

theorem moveFinal_post_src (db3 db2 : DB) (tpid spid : String) {sp p2 : Phase}
    (hwf3 : dbWF db3)
    (hsp : (db3.phases.filter (fun p => p.id == spid)).head? = some sp)
    (hne1 : spid ≠ "") (hne2 : spid ≠ tpid) (hspne : sp.journey_id ≠ "")
    (htq : (db2.phases.filter (fun p => p.id == tpid)).head? = some p2)
    (hpost3 : sweepPost db3 p2.journey_id) :
    sweepPost (moveFinal db3 db2 tpid spid) sp.journey_id := by
  unfold moveFinal
  rw [if_pos ⟨hne1, hne2⟩]
  simp only [hsp, htq]
  rw [if_neg hspne]
  by_cases he : sp.journey_id = p2.journey_id
  · simp only [he, beq_self_eq_true, if_true]
    exact hpost3
  · have he2 : (sp.journey_id == p2.journey_id) = false :=
      beq_eq_false_iff_ne.mpr he
    simp only [he2, Bool.false_eq_true, if_false]
    exact sweep_correct db3 sp.journey_id hwf3.1

theorem moveStep_post {db : DB} {sid tpid : String} {db2 : DB} (hwf : dbWF db)
    {step : Step} {tphase : Phase} {tjourney : Journey}
    (hstep : db.steps.filter (fun s => s.id == sid) = [step])
    (htp : db.phases.filter (fun p => p.id == tpid) = [tphase])
    (htj : db.journeys.filter (fun j => j.id == tphase.journey_id) = [tjourney])
    (htne : tphase.journey_id ≠ "")
    (h : moveStep db sid tpid = (Except.ok (), db2)) :
    sweepPost db2 tphase.journey_id ∧
      ∀ sp : Phase,
        (db.phases.filter (fun p => p.id == step.phase_id)).head? = some sp →
        step.phase_id ≠ "" → step.phase_id ≠ tpid → sp.journey_id ≠ "" →
        sweepPost db2 sp.journey_id := by
  simp only [moveStep, hstep, htp, htj] at h
  split at h
  · exact Except.noConfusion (congrArg Prod.fst h)
  · split at h
    · exact Except.noConfusion (congrArg Prod.fst h)
    · have hdb2 : db2 = moveStepCore db sid tpid step.phase_id :=
        (congrArg Prod.snd h).symm
      subst hdb2
      rw [moveStepCore_decomp]
      have hf2 := moveDb2_fields db sid tpid step.phase_id
      have hwf2 := moveDb2_wf db sid tpid step.phase_id hwf
      have htph : ((moveDb2 db sid tpid step.phase_id).phases.filter
          (fun p => p.id == tpid)).head? = some tphase := by
        rw [hf2.2.1, htp]
        rfl
      have h3eq := moveDb3_eq db sid tpid step.phase_id htph htne
      have hpost3 : sweepPost (moveDb3 db sid tpid step.phase_id)
          tphase.journey_id := by
        rw [h3eq]
        exact sweep_correct _ _ hwf2.1
      have hwf3 : dbWF (moveDb3 db sid tpid step.phase_id) := by
        rw [h3eq]
        exact sweep_preserves_wf _ _ hwf2
      have h3ph : (moveDb3 db sid tpid step.phase_id).phases = db.phases := by
        rw [h3eq, (sweep_fields _ _).2.1, hf2.2.1]
      refine ⟨moveFinal_post _ _ _ _ _ hwf3 hpost3, ?_⟩
      intro sp hsp hne1 hne2 hspne
      have hsp3 : ((moveDb3 db sid tpid step.phase_id).phases.filter
          (fun p => p.id == step.phase_id)).head? = some sp := by
        rw [h3ph]
        exact hsp
      exact moveFinal_post_src _ _ _ _ hwf3 hsp3 hne1 hne2 hspne htph hpost3

/-- C2 (amended): of the four structural mutation handlers, only
`delete_step` and `move_step_to_phase` invoke the repair sweep
`_update_continue_step_ids_for_journey` before returning success: on a
well-formed store, a successful `delete_step` establishes the sweep
post-condition on the deleted step's journey, and a successful
`move_step_to_phase` establishes it on the target journey and — when the
source phase is distinct and resolves to a non-empty journey — on the
source journey as well; the reorder handlers (`reorder_steps`,
`reorder_phases`), by contrast, perform no sweep at all: on success they
return with the journeys table byte-for-byte unchanged, leaving any
continuation pointer invalidated by the reorder stale until a later
read-time repair. -/
theorem mutation_handlers_sweep (db : DB) (hwf : dbWF db) :
    (∀ pid ids db2, reorderSteps db pid ids = (Except.ok (), db2) →
      db2.journeys = db.journeys) ∧
    (∀ jid ids db2, reorderPhases db jid ids = (Except.ok (), db2) →
      db2.journeys = db.journeys) ∧
    (∀ sid db2 step phase,
      (db.steps.filter (fun s => s.id == sid)).head? = some step →
      (db.phases.filter (fun p => p.id == step.phase_id)).head? = some phase →
      phase.journey_id ≠ "" →
      deleteStep db sid = (Except.ok (), db2) →
      sweepPost db2 phase.journey_id) ∧
    (∀ sid tpid db2 step tphase tjourney,
      db.steps.filter (fun s => s.id == sid) = [step] →
      db.phases.filter (fun p => p.id == tpid) = [tphase] →
      db.journeys.filter (fun j => j.id == tphase.journey_id) = [tjourney] →
      tphase.journey_id ≠ "" →
      moveStep db sid tpid = (Except.ok (), db2) →
      sweepPost db2 tphase.journey_id ∧
        ∀ sp,
          (db.phases.filter (fun p => p.id == step.phase_id)).head? = some sp →
          step.phase_id ≠ "" → step.phase_id ≠ tpid → sp.journey_id ≠ "" →
          sweepPost db2 sp.journey_id) := by
  refine ⟨?_, ?_, ?_, ?_⟩
  · intro pid ids db2 h
    exact reorderSteps_ok_journeys h
  · intro jid ids db2 h
    exact reorderPhases_ok_journeys h
  · intro sid db2 step phase h1 h2 h3 h4
    exact deleteStep_post hwf h1 h2 h3 h4
  · intro sid tpid db2 step tphase tjourney h1 h2 h3 h4 h5
    exact moveStep_post hwf h1 h2 h3 h4 h5

def dbC2 : DB :=
  { projects := [⟨"pr", "t"⟩],
    journeys :=
      [ ⟨"J", "pr", "t", "J", false, none, none, some 1⟩,
        ⟨"SJ", "pr", "t", "SJ", true, some "A", some "B", none⟩ ],
    phases := [⟨"P", "J", 1⟩],
    steps := [⟨"A", "P", "t", 1⟩, ⟨"B", "P", "t", 2⟩] }

def sjC2 : Journey := ⟨"SJ", "pr", "t", "SJ", true, some "A", some "B", none⟩

def jC2 : Journey := ⟨"J", "pr", "t", "J", false, none, none, some 1⟩

/-- Counterexample to C2 as stated: a successful `reorder_steps` request
that swaps the two steps of phase `P` returns with the journeys table
unchanged, so the anchored subjourney `SJ` still stores
`continue_step_id = some "B"` even though the continuation computed from
the new ordering is `none` — the sweep the claim promises was never
invoked. -/
theorem reorder_handlers_no_sweep_counterexample :
    (reorderSteps dbC2 "P" ["B", "A"]).1 = Except.ok () ∧
    (reorderSteps dbC2 "P" ["B", "A"]).2.journeys = dbC2.journeys ∧
    sjC2 ∈ (reorderSteps dbC2 "P" ["B", "A"]).2.journeys ∧
    sjC2.is_subjourney = true ∧
    sjC2.parent_step_id = some "A" ∧
    "A" ∈ (journeySteps (reorderSteps dbC2 "P" ["B", "A"]).2 "J").map Step.id ∧
    journeyById (reorderSteps dbC2 "P" ["B", "A"]).2 "J" = some jC2 ∧
    pyStrNorm sjC2.continue_step_id ≠
      pyStrNorm (computeContinueStepId sjC2 jC2
        (journeyPhases (reorderSteps dbC2 "P" ["B", "A"]).2 "J")
        (journeySteps (reorderSteps dbC2 "P" ["B", "A"]).2 "J")) := by decide

def dbC2d : DB :=
  { projects := [⟨"pr", "t"⟩],
    journeys :=
      [ ⟨"J", "pr", "t", "J", false, none, none, some 1⟩,
        ⟨"SJ", "pr", "t", "SJ", true, some "S", some "X", none⟩ ],
    phases := [⟨"P", "J", 1⟩],
    steps := [⟨"S", "P", "t", 1⟩, ⟨"T", "P", "t", 2⟩] }

def stepTd : Step := ⟨"T", "P", "t", 2⟩

def phasePd : Phase := ⟨"P", "J", 1⟩

def jC2d : Journey := ⟨"J", "pr", "t", "J", false, none, none, some 1⟩

def sjC2fixed : Journey := ⟨"SJ", "pr", "t", "SJ", true, some "S", none, none⟩

theorem mutation_handlers_sweep_witness :
    pyStrNorm sjC2fixed.continue_step_id =
      pyStrNorm (computeContinueStepId sjC2fixed jC2d
        (journeyPhases (deleteStep dbC2d "T").2 "J")
        (journeySteps (deleteStep dbC2d "T").2 "J")) :=
  ((mutation_handlers_sweep dbC2d ⟨by decide, by decide, by decide⟩).2.2.1 "T"
      (deleteStep dbC2d "T").2 stepTd phasePd (by decide) (by decide)
      (by decide) (by decide))
    sjC2fixed (by decide) (by decide) "S" (by decide) (by decide) jC2d
    (by decide)

theorem head_filter_mem {α : Type _} {p : α → Bool} {l : List α} {x : α}
    (h : (l.filter p).head? = some x) : x ∈ l ∧ p x = true := by
  have hx : x ∈ l.filter p := by
    cases hfl : l.filter p with
    | nil => rw [hfl] at h; exact Option.noConfusion h
    | cons y ys =>
      rw [hfl] at h
      have hyx : y = x := Option.some.inj h
      exact hyx ▸ List.mem_cons_self y ys
  exact ⟨(List.mem_filter.mp hx).1, (List.mem_filter.mp hx).2⟩

/-- The anchor chain `delete_step`'s trailing loop chases still resolves in
store `d`: the subjourney's `parent_step_id` is a truthy step id whose step,
phase and journey rows all exist with truthy foreign keys (`steps.py` lines
288-313). -/
def liveAnchor (d : DB) (j : Journey) : Prop :=
  ∃ a st ph pj,
    j.parent_step_id = some a ∧ a ≠ "" ∧
    (d.steps.filter (fun s => s.id == a)).head? = some st ∧
    st.phase_id ≠ "" ∧
    (d.phases.filter (fun p => p.id == st.phase_id)).head? = some ph ∧
    ph.journey_id ≠ "" ∧
    journeyById d ph.journey_id = some pj

theorem applyFixes_continue (pj : Journey) (phases : List Phase)
    (steps : List Step) :
    ∀ (subs : List Journey) (j : Journey),
      applyFixes pj phases steps subs j = j ∨
      ∃ sj ∈ subs, (applyFixes pj phases steps subs j).continue_step_id =
        computeContinueStepId sj pj phases steps := by
  intro subs
  induction subs with
  | nil => intro j; exact Or.inl rfl
  | cons sj rest ih =>
    intro j
    have hfold : applyFixes pj phases steps (sj :: rest) j =
        applyFixes pj phases steps rest (gFix pj phases steps sj j) := rfl
    rcases ih (gFix pj phases steps sj j) with heq | ⟨sj1, hsj1, hval⟩
    · rw [hfold, heq]
      unfold gFix
      split
      · exact Or.inr ⟨sj, List.mem_cons_self sj rest, rfl⟩
      · exact Or.inl rfl
    · exact Or.inr ⟨sj1, List.mem_cons_of_mem sj hsj1, by rw [hfold]; exact hval⟩

theorem journeyById_of_map {db : DB} {F : Journey → Journey}
    (hf : ∀ j, (F j).id = j.id) (gid : String) :
    journeyById { db with journeys := db.journeys.map F } gid =
      Option.map F (journeyById db gid) := by
  unfold journeyById
  exact journeyById_map hf gid

theorem sweep_no_introduce {db : DB} {jid sid : String}
    (hTfree : ∀ st ∈ db.steps, st.id ≠ sid)
    {j2 : Journey}
    (hmem : j2 ∈ (updateContinueStepIdsForJourney db jid).journeys)
    (hc : j2.continue_step_id = some sid) :
    ∃ j ∈ db.journeys, j.id = j2.id ∧ j.is_subjourney = j2.is_subjourney ∧
      j.parent_step_id = j2.parent_step_id ∧
      j.continue_step_id = some sid := by
  cases hf : journeyById db jid with
  | none =>
    rw [sweep_eq_of_missing hf] at hmem
    exact ⟨j2, hmem, rfl, rfl, rfl, hc⟩
  | some journey =>
    rw [sweep_eq_of_found hf] at hmem
    obtain ⟨j, hj, hj2⟩ := List.mem_map.mp hmem
    have hskel := applyFixes_skeleton journey (journeyPhases db jid)
      (journeySteps db jid)
      (anchoredSubjourneys db.journeys ((journeySteps db jid).map Step.id)) j
    rcases applyFixes_continue journey (journeyPhases db jid)
        (journeySteps db jid)
        (anchoredSubjourneys db.journeys ((journeySteps db jid).map Step.id))
        j with heq | ⟨sj, hsj, hval⟩
    · have hje : j2 = j := hj2.symm.trans heq
      refine ⟨j, hj, ?_, ?_, ?_, ?_⟩
      · rw [hje]
      · rw [hje]
      · rw [hje]
      · rw [← hje]; exact hc
    · rw [hj2, hc] at hval
      have hsrc := compute_result_sources sj journey (journeyPhases db jid)
        (journeySteps db jid) sid hval.symm
      rcases hsrc with ⟨stx, hstx, hstid⟩ | hpar
      · exact absurd hstid (hTfree stx (mem_journeySteps hstx).1)
      · obtain ⟨-, -, a, ha, hain⟩ := mem_anchoredSubjourneys.mp hsj
        rw [hpar] at ha
        have haid : a = sid := (Option.some.inj ha).symm
        rw [haid] at hain
        obtain ⟨stx, hstx, hstid⟩ := List.mem_map.mp hain
        exact absurd hstid (hTfree stx (mem_journeySteps hstx).1)

theorem sweep_journeyById_back {db : DB} {jid gid : String} {pj2 : Journey}
    (h : journeyById (updateContinueStepIdsForJourney db jid) gid = some pj2) :
    ∃ pj, journeyById db gid = some pj := by
  cases hf : journeyById db jid with
  | none =>
    rw [sweep_eq_of_missing hf] at h
    exact ⟨pj2, h⟩
  | some journey =>
    rw [sweep_eq_of_found hf,
      journeyById_of_map (fun x => (applyFixes_skeleton _ _ _ _ x).1) gid] at h
    cases hg : journeyById db gid with
    | none => rw [hg] at h; exact Option.noConfusion h
    | some pj => exact ⟨pj, rfl⟩

theorem grandparentSweepStep_cases (d : DB) (c : String) :
    grandparentSweepStep d c = d ∨
    ∃ gid, grandparentSweepStep d c =
      updateContinueStepIdsForJourney d gid := by
  unfold grandparentSweepStep
  repeat' split
  all_goals first | exact Or.inl rfl | exact Or.inr ⟨_, rfl⟩

theorem grandparentSweepStep_eq_sweep {d : DB} {c : String} {row : Journey}
    (hrow : journeyById d c = some row) {a : String}
    (hpar : row.parent_step_id = some a) (hane : a ≠ "")
    {st : Step} (hst : (d.steps.filter (fun s => s.id == a)).head? = some st)
    (hstp : st.phase_id ≠ "")
    {ph : Phase}
    (hph : (d.phases.filter (fun p => p.id == st.phase_id)).head? = some ph)
    (hphj : ph.journey_id ≠ "") :
    grandparentSweepStep d c =
      updateContinueStepIdsForJourney d ph.journey_id := by
  unfold grandparentSweepStep
  simp only [hrow, hpar, hst, hph]
  rw [if_neg hane, if_neg hstp, if_neg hphj]

theorem grandparentSweepStep_back {d : DB} {c sid : String}
    (hTfree : ∀ st ∈ d.steps, st.id ≠ sid)
    {j2 : Journey} (hmem : j2 ∈ (grandparentSweepStep d c).journeys)
    (hc : j2.continue_step_id = some sid) :
    ∃ j ∈ d.journeys, j.id = j2.id ∧ j.is_subjourney = j2.is_subjourney ∧
      j.parent_step_id = j2.parent_step_id ∧
      j.continue_step_id = some sid := by
  rcases grandparentSweepStep_cases d c with heq | ⟨gid, heq⟩
  · rw [heq] at hmem
    exact ⟨j2, hmem, rfl, rfl, rfl, hc⟩
  · rw [heq] at hmem
    exact sweep_no_introduce hTfree hmem hc

theorem grandparentSweepStep_journeyById_back {d : DB} {c gid : String}
    {pj2 : Journey}
    (h : journeyById (grandparentSweepStep d c) gid = some pj2) :
    ∃ pj, journeyById d gid = some pj := by
  rcases grandparentSweepStep_cases d c with heq | ⟨jid, heq⟩
  · rw [heq] at h
    exact ⟨pj2, h⟩
  · rw [heq] at h
    exact sweep_journeyById_back h

theorem liveAnchor_grandparent_back {d : DB} {c : String} {j2 j : Journey}
    (hpar : j.parent_step_id = j2.parent_step_id)
    (hla : liveAnchor (grandparentSweepStep d c) j2) : liveAnchor d j := by
  obtain ⟨a, st, ph, pj, h1, h2, h3, h4, h5, h6, h7⟩ := hla
  have hfields := grandparentSweepStep_fields d c
  rw [hfields.2.2] at h3
  rw [hfields.2.1] at h5
  obtain ⟨pj0, hpj0⟩ := grandparentSweepStep_journeyById_back h7
  exact ⟨a, st, ph, pj0, hpar.trans h1, h2, h3, h4, h5, h6, hpj0⟩

theorem sweep_kills_pointer {d : DB} {gid sid : String} (hwf : dbWF d)
    (hsid : sid ≠ "")
    (hTfree : ∀ st ∈ d.steps, st.id ≠ sid)
    {j : Journey} (hj : j ∈ d.journeys) (hsub : j.is_subjourney = true)
    {a : String} (hpar : j.parent_step_id = some a)
    {st : Step} (hst : (d.steps.filter (fun s => s.id == a)).head? = some st)
    {ph : Phase}
    (hph : (d.phases.filter (fun p => p.id == st.phase_id)).head? = some ph)
    (hphj : ph.journey_id = gid)
    {pj : Journey} (hpj : journeyById d gid = some pj)
    {j2 : Journey}
    (hj2 : j2 ∈ (updateContinueStepIdsForJourney d gid).journeys)
    (hid : j2.id = j.id) :
    j2.continue_step_id ≠ some sid := by
  intro hc
  have hfound := sweep_eq_of_found hpj
  have hmem2 := hj2
  rw [hfound] at hmem2
  obtain ⟨j0, hj0, hj0eq⟩ := List.mem_map.mp hmem2
  have hskel := applyFixes_skeleton pj (journeyPhases d gid)
    (journeySteps d gid)
    (anchoredSubjourneys d.journeys ((journeySteps d gid).map Step.id)) j0
  have hj2id : j2.id = j0.id := by
    rw [← hj0eq]
    exact hskel.1
  have hj0j : j0 = j := eq_of_mem_of_id hwf.1 hj0 hj (hj2id.symm.trans hid)
  rw [hj0j] at hj0eq hskel
  have hsub2 : j2.is_subjourney = true := by
    rw [← hj0eq, hskel.2.1]
    exact hsub
  have hpar2 : j2.parent_step_id = some a := by
    rw [← hj0eq, hskel.2.2.1]
    exact hpar
  have hstm := head_filter_mem hst
  have hsta : st.id = a := by
    have := hstm.2
    simpa using this
  have hphm := head_filter_mem hph
  have hphid : ph.id = st.phase_id := by
    have := hphm.2
    simpa using this
  have hstj : st ∈ journeySteps d gid :=
    mem_journeySteps_intro hstm.1 hphm.1 hphj hphid
  have hain : a ∈ (journeySteps d gid).map Step.id :=
    hsta ▸ List.mem_map_of_mem Step.id hstj
  have hain2 : a ∈ (journeySteps (updateContinueStepIdsForJourney d gid)
      gid).map Step.id := by
    rw [journeySteps_congr (sweep_fields d gid).2.1 (sweep_fields d gid).2.2 gid]
    exact hain
  have hpj2 : journeyById (updateContinueStepIdsForJourney d gid) gid =
      some (applyFixes pj (journeyPhases d gid) (journeySteps d gid)
        (anchoredSubjourneys d.journeys ((journeySteps d gid).map Step.id))
        pj) := by
    rw [hfound,
      journeyById_of_map (fun x => (applyFixes_skeleton _ _ _ _ x).1) gid, hpj]
    rfl
  have heq := sweep_correct d gid hwf.1 j2 hj2 hsub2 a hpar2 hain2 _ hpj2
  rw [hc] at heq
  have hl : pyStrNorm (some sid) = some sid := by
    simp [pyStrNorm, hsid]
  rw [hl] at heq
  cases hcv : computeContinueStepId j2
      (applyFixes pj (journeyPhases d gid) (journeySteps d gid)
        (anchoredSubjourneys d.journeys ((journeySteps d gid).map Step.id)) pj)
      (journeyPhases (updateContinueStepIdsForJourney d gid) gid)
      (journeySteps (updateContinueStepIdsForJourney d gid) gid) with
  | none =>
    rw [hcv] at heq
    simp [pyStrNorm] at heq
  | some v =>
    rw [hcv] at heq
    by_cases hv : v = ""
    · rw [hv] at heq
      simp [pyStrNorm] at heq
    · simp [pyStrNorm, hv] at heq
      have hsrc := compute_result_sources j2 _ _ _ v hcv
      rcases hsrc with ⟨stx, hstx, hstid⟩ | hpv
      · have hstxm : stx ∈ d.steps := by
          rw [journeySteps_congr (sweep_fields d gid).2.1
            (sweep_fields d gid).2.2 gid] at hstx
          exact (mem_journeySteps hstx).1
        exact absurd (show stx.id = sid by rw [hstid, ← heq])
          (hTfree stx hstxm)
      · rw [hpar2] at hpv
        have hav : a = v := Option.some.inj hpv
        exact absurd (show st.id = sid by rw [hsta, hav, ← heq])
          (hTfree st hstm.1)

theorem grandparent_loop_kills (sid : String) (hsid : sid ≠ "") :
    ∀ (ids : List String) (d : DB), dbWF d →
      (∀ st ∈ d.steps, st.id ≠ sid) →
      (∀ j ∈ d.journeys, j.is_subjourney = true →
        j.continue_step_id = some sid → liveAnchor d j → j.id ∈ ids) →
      ∀ j2 ∈ (ids.foldl grandparentSweepStep d).journeys,
        j2.is_subjourney = true →
        liveAnchor (ids.foldl grandparentSweepStep d) j2 →
        j2.continue_step_id ≠ some sid := by
  intro ids
  induction ids with
  | nil =>
    intro d _ _ hinv j2 hj2 hsub hla hc
    exact absurd (hinv j2 hj2 hsub hc hla) (List.not_mem_nil _)
  | cons c rest ih =>
    intro d hwf hTfree hinv
    rw [List.foldl_cons]
    refine ih (grandparentSweepStep d c) (grandparentSweepStep_wf d c hwf)
      ?_ ?_
    · intro st hst
      rw [(grandparentSweepStep_fields d c).2.2] at hst
      exact hTfree st hst
    · intro j2 hj2 hsub2 hc2 hla2
      obtain ⟨j, hj, hjid, hjsub, hjpar, hjc⟩ :=
        grandparentSweepStep_back hTfree hj2 hc2
      have hla : liveAnchor d j := liveAnchor_grandparent_back hjpar hla2
      have hsubj : j.is_subjourney = true := by
        rw [hjsub]
        exact hsub2
      have hmem := hinv j hj hsubj hjc hla
      rcases List.mem_cons.mp hmem with hceq | hrest
      · exfalso
        have hjb : journeyById d c = some j := by
          rw [← hceq]
          exact head_filter_key Journey.id d.journeys hwf.1 j hj
        obtain ⟨a, st, ph, pj, h1, h2, h3, h4, h5, h6, h7⟩ := hla
        have hsweep := grandparentSweepStep_eq_sweep hjb h1 h2 h3 h4 h5 h6
        have hkill := sweep_kills_pointer hwf hsid hTfree hj hsubj h1 h3 h5
          rfl h7 (by rw [← hsweep]; exact hj2) hjid.symm
        exact hkill hc2
      · rw [← hjid]
        exact hrest

/-- C4 (amended): after a successful `delete_step` of step `sid` on a
well-formed store, the deleted id is gone from the steps table, and every
subjourney whose anchor chain still resolves in the resulting store — a
truthy `parent_step_id` whose step, phase and journey rows all exist with
truthy foreign keys, exactly the chain the handler's grandparent loop
chases — no longer stores `continue_step_id = sid`: the owning-journey
sweep plus the per-affected-subjourney grandparent sweeps remove every
reachable pointer to the deleted step.  (A subjourney whose anchor chain is
broken — in particular one anchored at the deleted step itself — can keep
the dangling pointer; see the counterexample.) -/
theorem delete_step_dangling_scope (db : DB) (sid : String) (db2 : DB)
    (hwf : dbWF db) (hsid : sid ≠ "")
    (h : deleteStep db sid = (Except.ok (), db2)) :
    (∀ st ∈ db2.steps, st.id ≠ sid) ∧
    ∀ j2 ∈ db2.journeys, j2.is_subjourney = true → liveAnchor db2 j2 →
      j2.continue_step_id ≠ some sid := by
  obtain ⟨step0, phase0, hs0, hp0, hj0ex, hdb2⟩ := deleteStep_ok_inv h
  set db1 : DB := { db with
    steps := db.steps.filter (fun s => !(s.id == sid)) } with hdb1
  set remIds := (sortedByKey Step.sequence_order
    (db1.steps.filter (fun s => s.phase_id == step0.phase_id))).map Step.id
    with hrem
  set dbR := renumberSteps step0.phase_id remIds db1 with hdbR
  set db3 := (if phase0.journey_id = "" then dbR
    else updateContinueStepIdsForJourney dbR phase0.journey_id) with hdb3
  set affected := (db.journeys.filter
    (fun j => j.is_subjourney && j.continue_step_id == some sid)).map
    Journey.id with haff
  have hcore : db2 = affected.foldl grandparentSweepStep db3 := by
    rw [hdb2]
    rfl
  have hwf1 : dbWF db1 := by
    refine ⟨hwf.1, hwf.2.1, ?_⟩
    show ((db.steps.filter (fun s => !(s.id == sid))).map Step.id).Nodup
    exact ((List.filter_sublist db.steps).map Step.id).nodup hwf.2.2
  have hwfR : dbWF dbR := renumberSteps_wf _ _ _ hwf1
  have hTfree1 : ∀ st ∈ db1.steps, st.id ≠ sid := by
    intro st hst
    rw [hdb1] at hst
    have hm := List.mem_filter.mp hst
    simpa using hm.2
  have hTfreeR : ∀ st ∈ dbR.steps, st.id ≠ sid := by
    intro st hst
    rw [hdbR, renumberSteps_eq] at hst
    obtain ⟨s0, hs0m, hs0e⟩ := List.mem_map.mp hst
    rw [← hs0e, (stepRenum_id_phase _ _ s0).1]
    exact hTfree1 s0 hs0m
  have hTfree3 : ∀ st ∈ db3.steps, st.id ≠ sid := by
    intro st hst
    rw [hdb3] at hst
    by_cases hje : phase0.journey_id = ""
    · rw [if_pos hje] at hst
      exact hTfreeR st hst
    · rw [if_neg hje, (sweep_fields dbR phase0.journey_id).2.2] at hst
      exact hTfreeR st hst
  have hwf3 : dbWF db3 := by
    rw [hdb3]
    by_cases hje : phase0.journey_id = ""
    · rw [if_pos hje]
      exact hwfR
    · rw [if_neg hje]
      exact sweep_preserves_wf _ _ hwfR
  have hRj : dbR.journeys = db.journeys := by
    rw [hdbR, renumberSteps_journeys, hdb1]
  have hinv3 : ∀ j ∈ db3.journeys, j.is_subjourney = true →
      j.continue_step_id = some sid → liveAnchor db3 j → j.id ∈ affected := by
    intro j hj hsub hc _
    have hback : ∃ j0 ∈ db.journeys, j0.id = j.id ∧
        j0.is_subjourney = j.is_subjourney ∧
        j0.continue_step_id = some sid := by
      rw [hdb3] at hj
      by_cases hje : phase0.journey_id = ""
      · rw [if_pos hje, hRj] at hj
        exact ⟨j, hj, rfl, rfl, hc⟩
      · rw [if_neg hje] at hj
        obtain ⟨j0, hj0, hid, hsubeq, _, hc0⟩ :=
          sweep_no_introduce hTfreeR hj hc
        rw [hRj] at hj0
        exact ⟨j0, hj0, hid, hsubeq, hc0⟩
    obtain ⟨j0, hj0, hid, hsubeq, hc0⟩ := hback
    have hflt : j0 ∈ db.journeys.filter
        (fun x => x.is_subjourney && x.continue_step_id == some sid) := by
      rw [List.mem_filter]
      refine ⟨hj0, ?_⟩
      rw [Bool.and_eq_true]
      constructor
      · rw [hsubeq]
        exact hsub
      · rw [hc0]
        simp
    rw [haff, ← hid]
    exact List.mem_map_of_mem Journey.id hflt
  constructor
  · intro st hst
    rw [hcore, (foldl_grandparent_fields affected db3).2.2] at hst
    exact hTfree3 st hst
  · rw [hcore]
    exact grandparent_loop_kills sid hsid affected db3 hwf3 hTfree3 hinv3

def dbC4 : DB :=
  { projects := [⟨"pr", "t"⟩],
    journeys :=
      [ ⟨"G", "pr", "t", "G", false, none, none, some 1⟩,
        ⟨"J", "pr", "t", "J", true, some "X", none, none⟩,
        ⟨"A", "pr", "t", "A", true, some "S", some "S", none⟩ ],
    phases := [⟨"PG", "G", 1⟩, ⟨"PJ", "J", 1⟩],
    steps := [⟨"X", "PG", "t", 1⟩, ⟨"S", "PJ", "t", 1⟩] }

def sjC4 : Journey := ⟨"A", "pr", "t", "A", true, some "S", some "S", none⟩

/-- Counterexample to C4 as stated: subjourney `A` is anchored at step `S`
and also stores `continue_step_id = some "S"`.  Deleting `S` succeeds, the
step is gone, the owner journey `J` is swept and `A`'s grandparent chase is
attempted — but the chase starts at `A.parent_step_id = "S"`, whose step row
was just deleted, so it aborts, and the journey-scoped sweep of `J` skips
`A` because its anchor is no longer among `J`'s steps.  `A` keeps its
stored pointer `some "S"` to the deleted step, contradicting "after
deletion no subjourney's stored continue_step_id points at the deleted
step". -/
theorem delete_step_dangling_counterexample :
    (deleteStep dbC4 "S").1 = Except.ok () ∧
    (∀ st ∈ (deleteStep dbC4 "S").2.steps, st.id ≠ "S") ∧
    sjC4 ∈ (deleteStep dbC4 "S").2.journeys ∧
    sjC4.is_subjourney = true ∧
    sjC4.continue_step_id = some "S" := by decide

def dbC4w : DB :=
  { projects := [⟨"pr", "t"⟩],
    journeys :=
      [ ⟨"G", "pr", "t", "G", false, none, none, some 1⟩,
        ⟨"J", "pr", "t", "J", true, some "X", none, none⟩,
        ⟨"A", "pr", "t", "A", true, some "X", some "S", none⟩ ],
    phases := [⟨"PG", "G", 1⟩, ⟨"PJ", "J", 1⟩],
    steps := [⟨"X", "PG", "t", 1⟩, ⟨"Y", "PG", "t", 2⟩, ⟨"S", "PJ", "t", 1⟩] }

def sjC4w2 : Journey := ⟨"A", "pr", "t", "A", true, some "X", some "Y", none⟩

def stepXw : Step := ⟨"X", "PG", "t", 1⟩

def phasePGw : Phase := ⟨"PG", "G", 1⟩

def jGw : Journey := ⟨"G", "pr", "t", "G", false, none, none, some 1⟩

theorem delete_step_dangling_scope_witness :
    (∀ st ∈ (deleteStep dbC4w "S").2.steps, st.id ≠ "S") ∧
    sjC4w2.continue_step_id ≠ some "S" := by
  have hthm := delete_step_dangling_scope dbC4w "S" (deleteStep dbC4w "S").2
    ⟨by decide, by decide, by decide⟩ (by decide) (by decide)
  exact ⟨hthm.1, hthm.2 sjC4w2 (by decide) (by decide)
    ⟨"X", stepXw, phasePGw, jGw, by decide, by decide, by decide, by decide,
      by decide, by decide, by decide⟩⟩
